import Mathlib

/-!
Verification of the puzzle generation core of `kiwi-num-slide-backed`
(`src/app/services/puzzle_generation.py`).

The Python module is shallowly embedded below: pure functions become Lean
functions, the two pseudo-random sources (`self._rng`, the per-instance
`random.Random(seed)` object, and the module-level `random` used inside
`Puzzle._gen_operators`) become explicit abstract draw streams threaded
through the computation, and raising code returns `Except PyErr`.
Exact rationals (`fractions.Fraction`) are modelled by `Rat`; both are kept
in reduced form with a positive denominator and the sign on the numerator.
-/

/-- Kinds of Python exceptions the embedded code can raise.  `valueError`
carries the message so that distinct `raise ValueError(...)` sites stay
distinguishable. -/
inductive PyErr where
  | valueError (msg : String)
  | zeroDivisionError
  | assertionError
deriving DecidableEq, Repr

/-- The four arithmetic operator symbols of the puzzle mesh. -/
inductive Op where
  | add
  | sub
  | mul
  | div
deriving DecidableEq, Repr

/-- Abstract pseudo-random source: a stream `f` of draws together with the
position of the next unread draw.  Models both `random.Random(seed)` objects
(whose draw sequence is a pure function of the seed) and the module-level
`random` generator.  Each sampling primitive consumes draws from the front. -/
structure Rng where
  pos : Nat
  f : Nat → Nat

/-- Consume one draw. -/
def Rng.draw (g : Rng) : Nat × Rng :=
  (g.f g.pos, ⟨g.pos + 1, g.f⟩)

/-- Models `rng.choice(xs)`: pick an element by one draw, modulo the length.
Call sites guarantee `xs ≠ []` (Python would raise `IndexError` otherwise);
the default `d` is only used on that dead path. -/
def Rng.choiceD (g : Rng) (xs : List α) (d : α) : α × Rng :=
  let (k, g') := g.draw
  (xs.getD (k % xs.length) d, g')

/-- Models `n` independent draws with replacement from `xs`
(the comprehension `[rng.choice(xs) for _ in range(n)]`). -/
def sampleRep (xs : List α) (d : α) : Nat → Rng → List α × Rng
  | 0, g => ([], g)
  | n + 1, g =>
    let (v, g₁) := Rng.choiceD g xs d
    let (rest, g₂) := sampleRep xs d n g₁
    (v :: rest, g₂)

/-- Fuel-indexed body of `shuffle`; the fuel equals the list length at the
top-level call, so the fuel-exhaustion branch is never taken there. -/
def shuffleGo : Nat → Rng → List α → List α × Rng
  | 0, g, _ => ([], g)
  | _ + 1, g, [] => ([], g)
  | n + 1, g, x :: xs =>
    let (k, g₁) := g.draw
    let i := k % (x :: xs).length
    let chosen := (x :: xs).getD i x
    let rest := (x :: xs).eraseIdx i
    let (tail, g₂) := shuffleGo n g₁ rest
    (chosen :: tail, g₂)

/-- Models `rng.shuffle(xs)` as a draw-driven uniform permutation
(select-and-remove form of Fisher–Yates). -/
def shuffle (g : Rng) (xs : List α) : List α × Rng :=
  shuffleGo xs.length g xs

/-! ### Canonical fraction strings (`_fraction_to_string`, `_string_to_fraction`) -/

/-- Decimal digit character for `d < 10`. -/
def digitChar (d : Nat) : Char := Char.ofNat (48 + d)

/-- Decimal digits of a natural number, most significant first; models the
output of Python `str` on a non-negative `int`. -/
def natDigits (n : Nat) : List Char :=
  if h : n < 10 then [digitChar n]
  else natDigits (n / 10) ++ [digitChar (n % 10)]
  decreasing_by exact Nat.div_lt_self (by omega) (by omega)

/-- Characters of Python `str(i)` for an `int`. -/
def intChars (i : Int) : List Char :=
  if i < 0 then '-' :: natDigits i.natAbs else natDigits i.toNat

/-- Models `_fraction_to_string`: the integer form when the denominator is `1`,
otherwise `"numerator/denominator"` with the sign on the numerator (`Rat`,
like `fractions.Fraction`, keeps the denominator positive). -/
def fraction_to_string (fr : Rat) : String :=
  if fr.den = 1 then ⟨intChars fr.num⟩
  else ⟨intChars fr.num ++ '/' :: natDigits fr.den⟩

/-- Whitespace recognised by `str.strip()` / `int()` (the ASCII cases). -/
def isPyWs (c : Char) : Bool :=
  c = ' ' || c = '\t' || c = '\n' || c = '\r'

/-- Models `s.strip()` on a character list. -/
def stripWs (l : List Char) : List Char :=
  ((l.dropWhile isPyWs).reverse.dropWhile isPyWs).reverse

/-- Numeric value of a decimal digit character, if it is one. -/
def digitVal (c : Char) : Option Nat :=
  if '0' ≤ c ∧ c ≤ '9' then some (c.toNat - 48) else none

/-- Left-to-right accumulation of decimal digits; `none` on a non-digit. -/
def parseDigitsAcc (acc : Nat) : List Char → Option Nat
  | [] => some acc
  | c :: cs =>
    match digitVal c with
    | none => none
    | some d => parseDigitsAcc (acc * 10 + d) cs

/-- A non-empty all-digit run, as a natural number. -/
def parseNatChars (l : List Char) : Option Nat :=
  if l.isEmpty then none else parseDigitsAcc 0 l

/-- Models Python `int(s)`: strip whitespace, optional sign, then a
non-empty digit run; `ValueError` otherwise.  (Python additionally accepts
underscore group separators, which never occur in canonical strings.) -/
def pyInt (l : List Char) : Except PyErr Int :=
  let s := stripWs l
  if s.head? = some '-' then
    match parseNatChars s.tail with
    | some n => .ok (-(n : Int))
    | none => .error (.valueError "invalid literal for int")
  else if s.head? = some '+' then
    match parseNatChars s.tail with
    | some n => .ok (n : Int)
    | none => .error (.valueError "invalid literal for int")
  else
    match parseNatChars s with
    | some n => .ok (n : Int)
    | none => .error (.valueError "invalid literal for int")

/-- Models `_string_to_fraction` on a character list: strip, split at the first
`'/'` if any, parse the parts with `int(...)`, and build the `Fraction`.
`Fraction(n, 0)` raises `ZeroDivisionError` in Python. -/
def string_to_fraction_chars (l : List Char) : Except PyErr Rat :=
  let s := stripWs l
  if '/' ∈ s then
    let n := s.takeWhile (· ≠ '/')
    let d := (s.dropWhile (· ≠ '/')).tail
    match pyInt n with
    | .error e => .error e
    | .ok ni =>
      match pyInt d with
      | .error e => .error e
      | .ok di =>
        if di = 0 then .error .zeroDivisionError
        else .ok (Rat.divInt ni di)
  else
    match pyInt s with
    | .error e => .error e
    | .ok n => .ok (n : Rat)

/-- Models `_string_to_fraction` on a `String`. -/
def string_to_fraction (s : String) : Except PyErr Rat :=
  string_to_fraction_chars s.data

/-! ### Round-trip lemmas for canonical fraction strings -/

/-! ### Line evaluation with precedence
(`Puzzle._apply_mul_div`, `Puzzle._eval_line_with_precedence`) -/

/-- Models `Puzzle._apply_mul_div`: multiply or divide, `none` for division by
exact zero.  The catch-all models the `raise ValueError` branch; it is
unreachable because the caller only passes `*` or `/`. -/
def apply_mul_div (a b : Rat) : Op → Option Rat
  | .mul => some (a * b)
  | .div => if b = 0 then none else some (a / b)
  | _ => none

/-- Pass 1 of `_eval_line_with_precedence`: collapse `*`/`/` left-to-right.
`a :: below` is the Python `tmp_vals` stack with its top (`tmp_vals[-1]`)
first, `opsRev` the reversed `tmp_ops`; the remaining `(op, value)` pairs
come from `zip(ops, values[1:])`.  Returns `tmp_vals` and `tmp_ops` in
Python order, or `none` after a division by zero. -/
def evalPass1 (a : Rat) (below : List Rat) (opsRev : List Op) :
    List (Op × Int) → Option (List Rat × List Op)
  | [] => some ((a :: below).reverse, opsRev.reverse)
  | (op, bi) :: rest =>
    let b : Rat := (bi : Rat)
    if op = .mul ∨ op = .div then
      match apply_mul_div a b op with
      | none => none
      | some res => evalPass1 res below opsRev rest
    else
      evalPass1 b (a :: below) (op :: opsRev) rest

/-- Pass 2 of `_eval_line_with_precedence`: fold `+`/`-` left-to-right over
the reduced list.  The `*`/`/` case models the `raise ValueError` branch;
it is unreachable because pass 1 only emits `+`/`-` into `tmp_ops`. -/
def evalPass2 (acc : Rat) : List (Op × Rat) → Option Rat
  | [] => some acc
  | (.add, b) :: rest => evalPass2 (acc + b) rest
  | (.sub, b) :: rest => evalPass2 (acc - b) rest
  | (_, _) :: _ => none

/-- Body of `_eval_line_with_precedence` after the `assert`: both passes.
The two `none` fallbacks for an empty list are unreachable (`values` is
non-empty by the assert and pass 1 returns a non-empty value list). -/
def evalLineCore (values : List Int) (ops : List Op) : Option Rat :=
  match values with
  | [] => none
  | v :: vs =>
    match evalPass1 (v : Rat) [] [] (ops.zip vs) with
    | none => none
    | some (tmpVals, tmpOps) =>
      match tmpVals with
      | [] => none
      | t0 :: trest => evalPass2 t0 (tmpOps.zip trest)

/-- Models `Puzzle._eval_line_with_precedence`: the `assert` models as an
`AssertionError`; otherwise the result is the sentinel `none` (Python
`None`) after a division by zero, or the exact rational value. -/
def eval_line_with_precedence (values : List Int) (ops : List Op) :
    Except PyErr (Option Rat) :=
  if 1 ≤ values.length ∧ ops.length = values.length - 1 then
    .ok (evalLineCore values ops)
  else
    .error .assertionError

/-! Spec-side description of the two passes, written after the words of the
specification ("first pass collapses every `*`/`/` application
left-to-right into a reduced value list; second pass applies `+`/`-`
left-to-right over the reduced list"), for comparison with the embedded
evaluator. -/

/-- Collapse every `*`/`/` application left-to-right, keeping `+`/`-`
boundaries; `none` when a division by exact zero occurs. -/
def specCollapse (a : Rat) : List (Op × Rat) → Option (List Rat × List Op)
  | [] => some ([a], [])
  | (op, b) :: rest =>
    match op with
    | .mul => specCollapse (a * b) rest
    | .div => if b = 0 then none else specCollapse (a / b) rest
    | _ => (specCollapse b rest).map (fun p => (a :: p.1, op :: p.2))

/-- Apply `+`/`-` left-to-right over the reduced list. -/
def specAddSub (a : Rat) : List Rat → List Op → Rat
  | b :: vs, .add :: os => specAddSub (a + b) vs os
  | b :: vs, .sub :: os => specAddSub (a - b) vs os
  | _, _ => a

/-- Evaluation as the specification describes it: collapse, then fold. -/
def specEvalLine (values : List Int) (ops : List Op) : Option Rat :=
  match values with
  | [] => none
  | v :: vs =>
    (specCollapse (v : Rat) ((ops.zip vs).map (fun p => (p.1, (p.2 : Rat))))).map
      (fun p =>
        match p.1 with
        | [] => 0
        | t0 :: trest => specAddSub t0 trest p.2)

/-! ### Operator specification and number domain
(`Puzzle._normalize_op_spec`, `Puzzle._normalize_number_choices`) -/

/-- One entry of `operators_spec`: a 1-tuple `('+',)` or a 2-tuple
`('+', count)` whose count may be `None`.  Tuples of other lengths and
non-operator symbols are ruled out by the type (Python checks them and
raises; those checks cannot fire on representable input). -/
inductive OpSpecItem where
  | one (op : Op)
  | two (op : Op) (count : Option Int)
deriving DecidableEq, Repr

/-- Models `Puzzle.DEFAULT_OP_SPEC`: unlimited `+` and `-`. -/
def DEFAULT_OP_SPEC : List OpSpecItem := [.one .add, .one .sub]

/-- The per-tuple loop of `_normalize_op_spec`.  The exact-count dict is an
insertion-ordered association list; re-assigning an existing key keeps its
position, as in a Python dict. -/
def upsertExact (l : List (Op × Int)) (k : Op) (v : Int) : List (Op × Int) :=
  match l with
  | [] => [(k, v)]
  | (k', v') :: t => if k' = k then (k, v) :: t else (k', v') :: upsertExact t k v

def normalizeLoop : List OpSpecItem → List (Op × Int) → List Op →
    Except PyErr (List (Op × Int) × List Op)
  | [], ex, unl => .ok (ex, unl)
  | item :: rest, ex, unl =>
    match item with
    | .one op => normalizeLoop rest ex (unl ++ [op])
    | .two op cnt =>
      match cnt with
      | none => normalizeLoop rest ex (unl ++ [op])
      | some c =>
        if c < 0 then .error (.valueError "Invalid count: must be int >= 0 or null.")
        else normalizeLoop rest (upsertExact ex op c) unl

/-- Models `Puzzle._normalize_op_spec`: returns `(op_exact, op_unlimited)` or
raises `ValueError`. -/
def normalize_op_spec (spec : List OpSpecItem) :
    Except PyErr (List (Op × Int) × List Op) :=
  if spec = [] then .error (.valueError "operators_spec cannot be empty.")
  else
    match normalizeLoop spec [] [] with
    | .error e => .error e
    | .ok (ex, unl) =>
      if ex.any (fun p => p.1 ∈ unl) then
        .error (.valueError "operator cannot be both exact and unlimited.")
      else if ex = [] ∧ unl = [] then
        .error (.valueError "At least one operator must be defined (exact or unlimited).")
      else .ok (ex, unl)

/-- Models `Puzzle._normalize_number_choices`: default domain `[2..9]`, otherwise a
non-empty list of integers `≥ 2` (non-integer members are not representable
here; Python raises on them). -/
def normalize_number_choices (choices : Option (List Int)) :
    Except PyErr (List Int) :=
  match choices with
  | none => .ok [2, 3, 4, 5, 6, 7, 8, 9]
  | some l =>
    if l = [] then .error (.valueError "numbers_choices must be a non-empty list or None.")
    else if l.any (fun v => v < 2) then
      .error (.valueError "numbers_choices contains a value < 2")
    else .ok l

/-! ### Generation (`Puzzle._gen_numbers_without_blank`, `Puzzle._gen_operators`) -/

/-- Models `Puzzle._gen_numbers_without_blank`: sample `N*N-1` numbers from the
domain with replacement, from the per-instance rng. -/
def gen_numbers_without_blank (N : Nat) (choices : List Int) (g : Rng) :
    List Int × Rng :=
  sampleRep choices 0 (N * N - 1) g

/-- Successive chunks of the given lengths, taken from the front of a list;
models filling the per-row/per-level structures from `iter(ops_pool)`.
The pool always holds exactly the required total, so the truncating
behaviour on a short list (where Python's `next` would raise
`StopIteration`) is never exercised. -/
def chunksOf : List Nat → List α → List (List α) × List α
  | [], xs => ([], xs)
  | L :: Ls, xs =>
    let c := xs.take L
    let (rest, xs') := chunksOf Ls (xs.drop L)
    (c :: rest, xs')

/-- Models `Puzzle._gen_operators`.  Builds the pool (exact counts first, then
fills sampled from the unlimited set), shuffles it, distributes it into
per-row and per-level slices and flattens.  CRUCIALLY, both the fill
sampling and the pool shuffle use the module-level generator (`globalRng`
here; `random.choice` / `random.shuffle` in the source), not the seeded
per-instance rng.  Returns the rng state alongside the outcome. -/
def gen_operators (N : Nat) (op_exact : List (Op × Int)) (op_unlimited : List Op)
    (g : Rng) : Except PyErr (List (List Op) × List (List Op) × List Op) × Rng :=
  if N < 2 then (.ok ([], [], []), g)
  else
    let total := 2 * N * (N - 1) - 2
    if total = 0 then
      (.ok (List.replicate N [], List.replicate (N - 1) [], []), g)
    else
      let exact_sum : Int := (op_exact.map (fun p => p.2)).sum
      if (total : Int) < exact_sum then
        (.error (.valueError "Sum of exact operator counts exceeds required total."), g)
      else
        let remaining : Int := (total : Int) - exact_sum
        if remaining > 0 ∧ op_unlimited = [] then
          (.error (.valueError "operators missing and no unlimited operators to fill them."), g)
        else
          let base := op_exact.foldl
            (fun acc p => acc ++ if 0 < p.2 then List.replicate p.2.toNat p.1 else []) []
          let (fills, g₁) := sampleRep op_unlimited Op.add remaining.toNat g
          let (pool, g₂) := shuffle g₁ (base ++ fills)
          let h_lengths := List.replicate (N - 1) (N - 1) ++ [N - 2]
          let v_lengths := List.replicate (N - 2) N ++ [N - 1]
          let (hops, rest₁) := chunksOf h_lengths pool
          let (vops, _) := chunksOf v_lengths rest₁
          let flat := (List.range (N - 1)).foldl
            (fun acc r => acc ++ hops.getD r [] ++ vops.getD r []) [] ++ hops.getD (N - 1) []
          (.ok (hops, vops, flat), g₂)

/-! ### Operator accessors and expected targets
(`Puzzle._row_ops`, `Puzzle._col_ops`, `Puzzle._compute_expected`) -/

/-- Models `Puzzle._row_ops`: the between-columns operators of row `r` (the source
returns a copy of the stored list). -/
def row_ops (hops : List (List Op)) (r : Nat) : List Op :=
  hops.getD r []

/-- Models `Puzzle._col_ops`: the between-rows operators of column `c`, one per
level, with no operator for the last column at the bottom level.  The
`getD` defaults stand for Python's `IndexError` paths, which cannot fire on
a well-formed mesh.  The source guards the final append by both `c < N-1`
and the redundant `c <= N-2`. -/
def col_ops (N : Nat) (vops : List (List Op)) (c : Nat) : List Op :=
  ((List.range (N - 2)).map (fun level => (vops.getD level []).getD c Op.add)) ++
    (if c < N - 1 then
      (if c ≤ N - 2 then [(vops.getD (N - 2) []).getD c Op.add] else [])
     else [])

/-- The row branch of `Puzzle._compute_expected`: slice the row values,
check the lengths, evaluate, and turn the `None` sentinel into the
division-by-zero `ValueError`. -/
def expected_row (N : Nat) (b : List Int) (hops : List (List Op)) (r : Nat) :
    Except PyErr Rat :=
  let vals := if r < N - 1 then (b.drop (r * N)).take N else (b.drop (r * N)).take (N - 1)
  let ops := row_ops hops r
  if vals.length = 0 then .error (.valueError "Empty row; N must be >= 2.")
  else if ops.length ≠ vals.length - 1 then
    .error (.valueError "Row/ops mismatch while computing expected.")
  else
    match eval_line_with_precedence vals ops with
    | .error e => .error e
    | .ok none => .error (.valueError "Division by zero while computing expected (row).")
    | .ok (some res) => .ok res

/-- The column branch of `Puzzle._compute_expected`. -/
def expected_col (N : Nat) (b : List Int) (vops : List (List Op)) (c : Nat) :
    Except PyErr Rat :=
  let vals := (List.range (if c < N - 1 then N else N - 1)).map
    (fun r => b.getD (r * N + c) 0)
  let ops := col_ops N vops c
  if vals.length = 0 then .error (.valueError "Empty column; N must be >= 2.")
  else if ops.length ≠ vals.length - 1 then
    .error (.valueError "Column/ops mismatch while computing expected.")
  else
    match eval_line_with_precedence vals ops with
    | .error e => .error e
    | .ok none => .error (.valueError "Division by zero while computing expected (column).")
    | .ok (some res) => .ok res

/-- Error-propagating map, in source order (the Python `for` loop stops at
the first raise). -/
def mapE (f : α → Except PyErr β) : List α → Except PyErr (List β)
  | [] => .ok []
  | a :: rest =>
    match f a with
    | .error e => .error e
    | .ok b =>
      match mapE f rest with
      | .error e => .error e
      | .ok bs => .ok (b :: bs)

/-- Models `Puzzle._compute_expected`: row targets followed by column targets. -/
def compute_expected (N : Nat) (b : List Int) (hops vops : List (List Op)) :
    Except PyErr (List Rat) :=
  match mapE (expected_row N b hops) (List.range N) with
  | .error e => .error e
  | .ok rows =>
    match mapE (expected_col N b vops) (List.range N) with
    | .error e => .error e
    | .ok cols => .ok (rows ++ cols)

/-! ### The Puzzle entity and its construction (`Puzzle.__init__`) -/

/-- The state a successful `Puzzle.__init__` leaves behind (the mutable
solutions cache is omitted; the solver below is a pure function). -/
structure Puzzle where
  N : Nat
  numbers : List Int
  hops_per_row : List (List Op)
  vops_per_level : List (List Op)
  operators : List Op
  expected : List Rat
deriving DecidableEq, Repr

/-- Models `Puzzle.__init__`.  `instRng` is the draw stream of the per-instance
`random.Random(seed)` — identical seeds yield identical streams — and
`globalRng` is the stream of the module-level `random`, whose state
persists across constructions.  Seed derivation itself (`_daily_seed`) is
outside the model.  Both rng states are returned alongside the outcome,
reflecting that generator state advances even when `__init__` raises. -/
def mkPuzzle (N : Nat) (instRng : Rng) (shuffle_after_expected : Bool)
    (operators_spec : Option (List OpSpecItem)) (numbers_choices : Option (List Int))
    (globalRng : Rng) : Except PyErr Puzzle × Rng × Rng :=
  if N < 2 then
    (.error (.valueError "N must be >= 2 in this fixed-blank mode."), instRng, globalRng)
  else
    match normalize_op_spec (operators_spec.getD DEFAULT_OP_SPEC) with
    | .error e => (.error e, instRng, globalRng)
    | .ok (op_exact, op_unlimited) =>
      match normalize_number_choices numbers_choices with
      | .error e => (.error e, instRng, globalRng)
      | .ok choices =>
        let (numbers, inst₁) := gen_numbers_without_blank N choices instRng
        match gen_operators N op_exact op_unlimited globalRng with
        | (.error e, g₁) => (.error e, inst₁, g₁)
        | (.ok (hops, vops, flat), g₁) =>
          match compute_expected N numbers hops vops with
          | .error e => (.error e, inst₁, g₁)
          | .ok expected =>
            let (nums₂, inst₂) :=
              if shuffle_after_expected then shuffle inst₁ numbers else (numbers, inst₁)
            (.ok ⟨N, nums₂, hops, vops, flat, expected⟩, inst₂, g₁)

/-! ### Structural equality and duplicate detection
(`Puzzle.is_equal_to`, `_as_board_spec`, `_is_duplicate`) -/

/-- Models `Puzzle.is_equal_to`: same `N`, identical operator sequence, identical
expected targets, equal number multisets (the `Counter` comparison). -/
def Puzzle.is_equal_to (p other : Puzzle) : Bool :=
  decide (p.N = other.N) && decide (p.operators = other.operators) &&
    decide (p.expected = other.expected) &&
    decide ((p.numbers : Multiset Int) = (other.numbers : Multiset Int))

/-- The part of `_as_board_spec` that `_is_duplicate` consults (the
optional `solutions` entry is never read by the duplicate check). -/
structure BoardSpec where
  N : Nat
  numbers : List Int
  operators : List Op
  expected : List String
deriving DecidableEq, Repr

def as_board_spec (p : Puzzle) : BoardSpec :=
  { N := p.N, numbers := p.numbers, operators := p.operators,
    expected := p.expected.map fraction_to_string }

/-- Models `_is_duplicate`: structural comparison of a Puzzle against already
serialized board specifications. -/
def is_duplicate (p : Puzzle) (bag : List BoardSpec) : Bool :=
  bag.any (fun spec =>
    decide (spec.N = p.N) && decide (spec.operators = p.operators) &&
      decide (spec.expected = p.expected.map fraction_to_string) &&
      decide ((spec.numbers : Multiset Int) = (p.numbers : Multiset Int)))

/-! ### Solver (`Puzzle.solve_all`) -/

/-- The fill order: every cell index except the bottom-right blank. -/
def fill_order (N : Nat) : List Nat :=
  (List.range (N * N)).filter (fun i => decide (i ≠ N * N - 1))

/-- Models `Puzzle._row_values`: numeric values of row `r` of a partially filled
board.  The `getD 0` defaults model `int(None)` / `IndexError` paths that
cannot fire when the row is fully placed on a well-formed board. -/
def row_values (N : Nat) (board : List (Option Int)) (r : Nat) : List Int :=
  (if r < N - 1 then (board.drop (r * N)).take N
   else (board.drop (r * N)).take (N - 1)).map (fun v => v.getD 0)

/-- Models `Puzzle._col_values`. -/
def col_values (N : Nat) (board : List (Option Int)) (c : Nat) : List Int :=
  (List.range (if c < N - 1 then N else N - 1)).map
    (fun r => (board.getD (r * N + c) none).getD 0)

/-- Models `res is not None and res == target`.  A raised `AssertionError` from
the evaluator would propagate in Python; it cannot occur at the solver's
call sites (the sliced lengths always match), so it is folded into
`false` here. -/
def line_matches (res : Except PyErr (Option Rat)) (target : Rat) : Bool :=
  match res with
  | .ok (some r) => decide (r = target)
  | _ => false

/-- Models `Puzzle._row_is_valid`; `expected.getD` models the (dead for real
puzzles) `IndexError` path of `self.expected[r]`. -/
def Puzzle.row_is_valid (p : Puzzle) (board : List (Option Int)) (r : Nat) : Bool :=
  line_matches
    (eval_line_with_precedence (row_values p.N board r) (row_ops p.hops_per_row r))
    (p.expected.getD r 0)

/-- Models `Puzzle._col_is_valid`. -/
def Puzzle.col_is_valid (p : Puzzle) (board : List (Option Int)) (c : Nat) : Bool :=
  line_matches
    (eval_line_with_precedence (col_values p.N board c) (col_ops p.N p.vops_per_level c))
    (p.expected.getD (p.N + c) 0)

/-- The solver's `completes_row` helper: the row index completed by placing
cell `idx`, if any. -/
def completes_row (N idx : Nat) : Option Nat :=
  let r := idx / N
  let c := idx % N
  if r < N - 1 ∧ c = N - 1 then some r
  else if r = N - 1 ∧ c = N - 2 then some r
  else none

/-- The solver's `completes_col` helper. -/
def completes_col (N idx : Nat) : Option Nat :=
  let r := idx / N
  let c := idx % N
  if c < N - 1 ∧ r = N - 1 then some c
  else if c = N - 1 ∧ r = N - 2 then some c
  else none

/-- The sort key of the MRV heuristic: `(remaining count, value)`,
lexicographically. -/
def poolLe (pool : List Int) (a b : Int) : Bool :=
  decide (pool.count a < pool.count b ∨ (pool.count a = pool.count b ∧ a ≤ b))

def insertSorted (le : α → α → Bool) (a : α) : List α → List α
  | [] => [a]
  | b :: t => if le a b then a :: b :: t else b :: insertSorted le a t

def sortByKey (le : α → α → Bool) : List α → List α
  | [] => []
  | a :: t => insertSorted le a (sortByKey le t)

/-- The solver's candidate list: the distinct values with a positive
remaining count, sorted by `(count, value)`.  The pool is the plain list of
remaining values (`Counter` with positive counts), so the distinct values
are its dedup; the sort keys are injective in the value, so any comparison
sort yields exactly Python's `sort(key=lambda v: (pool[v], v))`. -/
def candidates (pool : List Int) : List Int :=
  sortByKey (poolLe pool) pool.dedup

/-- The solution recorded at the bottom of the recursion:
`[board[i] for i in fill_order]`. -/
def extract_solution (foAll : List Nat) (board : List (Option Int)) : List Int :=
  foAll.map (fun i => (board.getD i none).getD 0)

/-- Models `max_solutions is not None and len(solutions) >= max_solutions`. -/
def capHit : Option Nat → Nat → Bool
  | none, _ => false
  | some c, n => decide (c ≤ n)

/-- The recursive `place` of `Puzzle.solve_all`.  `foAll` is the full fill
order, the fourth argument the not-yet-filled suffix; `sols` is the global
solutions list.  The candidate loop is a fold whose boolean records the
early `return` taken once the cap is hit. -/
def place (p : Puzzle) (cap : Option Nat) (foAll : List Nat) :
    List Nat → List (Option Int) → List Int → List (List Int) → List (List Int)
  | [], board, _pool, sols => sols ++ [extract_solution foAll board]
  | idx :: rest, board, pool, sols =>
    ((candidates pool).foldl
      (fun st val =>
        match st with
        | (sols₀, true) => (sols₀, true)
        | (sols₀, false) =>
          let board' := board.set idx (some val)
          let rowFail :=
            match completes_row p.N idx with
            | some r => ! p.row_is_valid board' r
            | none => false
          if rowFail then (sols₀, false)
          else
            let colFail :=
              match completes_col p.N idx with
              | some c => ! p.col_is_valid board' c
              | none => false
            if colFail then (sols₀, false)
            else
              let sols₁ := place p cap foAll rest board' (pool.erase val) sols₀
              (sols₁, capHit cap sols₁.length))
      (sols, false)).1

/-- The candidate-loop body of `place`, named for the solver lemmas below;
`place` on a non-empty fill suffix is definitionally a fold of this step
over the candidate list. -/
def placeStep (p : Puzzle) (cap : Option Nat) (foAll : List Nat) (idx : Nat)
    (rest : List Nat) (board : List (Option Int)) (pool : List Int)
    (st : List (List Int) × Bool) (val : Int) : List (List Int) × Bool :=
  match st with
  | (sols₀, true) => (sols₀, true)
  | (sols₀, false) =>
    let board' := board.set idx (some val)
    let rowFail :=
      match completes_row p.N idx with
      | some r => ! p.row_is_valid board' r
      | none => false
    if rowFail then (sols₀, false)
    else
      let colFail :=
        match completes_col p.N idx with
        | some c => ! p.col_is_valid board' c
        | none => false
      if colFail then (sols₀, false)
      else
        let sols₁ := place p cap foAll rest board' (pool.erase val) sols₀
        (sols₁, capHit cap sols₁.length)

/-- The combined row/column rejection test of one candidate placement (the
two `continue` branches of the solver's loop). -/
def placeFails (p : Puzzle) (idx : Nat) (board : List (Option Int)) (val : Int) : Bool :=
  (match completes_row p.N idx with
   | some r => ! p.row_is_valid (board.set idx (some val)) r
   | none => false) ||
  (match completes_col p.N idx with
   | some c => ! p.col_is_valid (board.set idx (some val)) c
   | none => false)

/-- Models `Puzzle.solve_all` (the `store` flag only copies the result into the
instance cache and is omitted). -/

def Puzzle.solve_all (p : Puzzle) (cap : Option Nat) : List (List Int) :=
  place p cap (fill_order p.N) (fill_order p.N)
    (List.replicate (p.N * p.N) none) p.numbers []

/-! ### Orchestration (`find_one_puzzle`, `generate_and_store_puzzles`) -/

/-- Models `find_one_puzzle`: build one candidate (fresh unseeded instance rng,
`shuffle_after_expected=True`), solve with the given cap, and accept it
only with exactly one solution under `require_unique`, at least one
otherwise.  A `ValueError` raised during construction propagates — there
is no handler in the source. -/
def find_one_puzzle (N : Nat) (instRng : Rng) (operators_spec : List OpSpecItem)
    (allowed_numbers : Option (List Int)) (require_unique : Bool)
    (max_solutions_check : Option Nat) (globalRng : Rng) :
    Except PyErr (Option Puzzle) × Rng × Rng :=
  match mkPuzzle N instRng true (some operators_spec) allowed_numbers globalRng with
  | (.error e, i, g) => (.error e, i, g)
  | (.ok p, i, g) =>
    let sols := p.solve_all max_solutions_check
    if require_unique then
      (if sols.length = 1 then (.ok (some p), i, g) else (.ok none, i, g))
    else
      (if 1 ≤ sols.length then (.ok (some p), i, g) else (.ok none, i, g))

/-- The summary dict returned by `generate_and_store_puzzles` (the
`difficulty` pass-through field is omitted). -/
structure GenSummary where
  requested : Nat
  inserted : Nat
  attempts : Nat
  N : Nat
deriving DecidableEq, Repr

/-- The `while` loop of `generate_and_store_puzzles`.  The fuel is the
remaining attempt budget `max_attempts - attempts`; `instRngs` supplies the
fresh unseeded per-construction rng of each attempt, and the module-level
rng `g` threads through.  Persistence (`insert_puzzle`) and the optional
solution caching are external effects that neither alter control flow nor
the summary, and are omitted; the duplicate check runs against the saved
board specifications exactly as in the source.  A construction error
escapes the loop uncaught. -/
def genLoop (count N : Nat) (operators_spec : List OpSpecItem)
    (allowed_numbers : Option (List Int)) (require_unique : Bool)
    (instRngs : Nat → Rng) :
    Nat → Rng → List BoardSpec → Nat → Except PyErr (List BoardSpec × Nat)
  | 0, _, saved, attempts => .ok (saved, attempts)
  | fuel + 1, g, saved, attempts =>
    if saved.length < count then
      match find_one_puzzle N (instRngs attempts) operators_spec allowed_numbers
          require_unique (if require_unique then some 2 else none) g with
      | (.error e, _, _) => .error e
      | (.ok none, _, g') =>
        genLoop count N operators_spec allowed_numbers require_unique instRngs
          fuel g' saved (attempts + 1)
      | (.ok (some p), _, g') =>
        if is_duplicate p saved then
          genLoop count N operators_spec allowed_numbers require_unique instRngs
            fuel g' saved (attempts + 1)
        else
          genLoop count N operators_spec allowed_numbers require_unique instRngs
            fuel g' (saved ++ [as_board_spec p]) (attempts + 1)
    else .ok (saved, attempts)

/-- Models `generate_and_store_puzzles`: run the loop and report the summary. -/
def generate_and_store_puzzles (count N : Nat) (operators_spec : List OpSpecItem)
    (allowed_numbers : Option (List Int)) (require_unique : Bool)
    (max_attempts : Nat) (instRngs : Nat → Rng) (g : Rng) :
    Except PyErr GenSummary :=
  match genLoop count N operators_spec allowed_numbers require_unique instRngs
      max_attempts g [] 0 with
  | .error e => .error e
  | .ok (saved, attempts) => .ok ⟨count, saved.length, attempts, N⟩

/-- Decidable equality for `Except` results, used to evaluate the embedded
functions on concrete inputs. -/
instance decEqExcept [DecidableEq e] [DecidableEq a] : DecidableEq (Except e a) := fun x y =>
  match x, y with
  | .error u, .error v => decidable_of_iff (u = v) (by simp)
  | .ok u, .ok v => decidable_of_iff (u = v) (by simp)
  | .error _, .ok _ => isFalse (by simp)
  | .ok _, .error _ => isFalse (by simp)

/-- The constant draw stream, for concrete evaluations. -/
def constRng (v : Nat) : Rng := ⟨0, fun _ => v⟩

/-- A concrete module-level draw stream whose first four draws differ from
the following ones; it drives the two sequential constructions of the
seed-determinism counterexample to different operator meshes. -/
def twoPhaseStream : Rng := ⟨0, fun n => if n < 4 then 0 else 1⟩

/-- Proof-side description: the board index whose placement completes row
`r` in the solver's row-major fill order. -/
def rowDoneIdx (N r : Nat) : Nat :=
  if r < N - 1 then r * N + (N - 1) else (N - 1) * N + (N - 2)

/-- Proof-side description: the board index whose placement completes
column `c`. -/
def colDoneIdx (N c : Nat) : Nat :=
  if c < N - 1 then (N - 1) * N + c else (N - 2) * N + (N - 1)

/-- The full board a solver solution describes: the `N*N-1` placed cells in
row-major order followed by the blank corner. -/
def solution_board (sol : List Int) : List (Option Int) :=
  sol.map some ++ [none]

/-- Row validity of a completed solution board, via the solver's own check. -/
def solution_row_valid (p : Puzzle) (sol : List Int) (r : Nat) : Bool :=
  p.row_is_valid (solution_board sol) r

/-- Column validity of a completed solution board. -/
def solution_col_valid (p : Puzzle) (sol : List Int) (c : Nat) : Bool :=
  p.col_is_valid (solution_board sol) c

/-- The conjunction of solution invariants established for `Puzzle.solve_all`:
full length, value multiset preservation, and validity of every row and
column of the described board. -/
def good_solution (p : Puzzle) (sol : List Int) : Prop :=
  sol.length = p.N * p.N - 1 ∧ sol.Perm p.numbers ∧
    (∀ r, r < p.N → solution_row_valid p sol r = true) ∧
    (∀ c, c < p.N → solution_col_valid p sol c = true)

/-! ## Supporting lemmas and theorems -/

unseal Rat.add Rat.mul Rat.sub Rat.inv

theorem length_eraseIdx_lt {l : List α} {i : Nat} (h : i < l.length) :
    (l.eraseIdx i).length < l.length := by
  have := List.length_eraseIdx_add_one h
  omega

theorem shuffleGo_length : ∀ (n : Nat) (g : Rng) (xs : List α),
    xs.length ≤ n → (shuffleGo n g xs).1.length = xs.length := by
  intro n
  induction n with
  | zero => intro g xs h; interval_cases hx : xs.length <;> simp [shuffleGo]
  | succ n ih =>
    intro g xs h
    match xs with
    | [] => simp [shuffleGo]
    | x :: rest =>
      simp only [shuffleGo]
      have hlt : (Rng.draw g).1 % (x :: rest).length < (x :: rest).length :=
        Nat.mod_lt _ (by simp)
      have herase := List.length_eraseIdx_add_one hlt
      have := ih (Rng.draw g).2 ((x :: rest).eraseIdx ((Rng.draw g).1 % (x :: rest).length))
        (by omega)
      simp only [List.length_cons] at *
      omega

theorem shuffle_length (g : Rng) (xs : List α) : (shuffle g xs).1.length = xs.length :=
  shuffleGo_length xs.length g xs le_rfl

theorem digitChar_bounds {d : Nat} (h : d < 10) :
    '0' ≤ digitChar d ∧ digitChar d ≤ '9' := by
  interval_cases d <;> decide

theorem digitVal_digitChar {d : Nat} (h : d < 10) : digitVal (digitChar d) = some d := by
  interval_cases d <;> decide

theorem natDigits_mem {n : Nat} : ∀ c ∈ natDigits n, '0' ≤ c ∧ c ≤ '9' := by
  induction n using Nat.strong_induction_on with
  | _ n ih =>
    rw [natDigits]
    split
    · intro c hc
      rw [List.mem_singleton] at hc
      exact hc ▸ digitChar_bounds (by omega)
    · intro c hc
      rcases List.mem_append.mp hc with h1 | h2
      · exact ih (n / 10) (Nat.div_lt_self (by omega) (by omega)) c h1
      · rw [List.mem_singleton] at h2
        exact h2 ▸ digitChar_bounds (Nat.mod_lt _ (by omega))

theorem natDigits_ne_nil {n : Nat} : natDigits n ≠ [] := by
  rw [natDigits]
  split <;> simp

theorem digit_not_slash {c : Char} (h1 : '0' ≤ c) (h2 : c ≤ '9') : c ≠ '/' := by
  rintro rfl; revert h1; decide

theorem digit_not_minus {c : Char} (h1 : '0' ≤ c) (h2 : c ≤ '9') : c ≠ '-' := by
  rintro rfl; revert h1; decide

theorem digit_not_plus {c : Char} (h1 : '0' ≤ c) (h2 : c ≤ '9') : c ≠ '+' := by
  rintro rfl; revert h1; decide

theorem digit_not_ws {c : Char} (h1 : '0' ≤ c) (h2 : c ≤ '9') : isPyWs c = false := by
  have hsp : c ≠ ' ' := by rintro rfl; revert h1; decide
  have hta : c ≠ '\t' := by rintro rfl; revert h1; decide
  have hnl : c ≠ '\n' := by rintro rfl; revert h1; decide
  have hcr : c ≠ '\r' := by rintro rfl; revert h1; decide
  simp [isPyWs, hsp, hta, hnl, hcr]

theorem dropWhile_eq_self_of_all {p : α → Bool} {l : List α}
    (h : ∀ c ∈ l, p c = false) : l.dropWhile p = l := by
  cases l with
  | nil => rfl
  | cons x xs =>
    rw [List.dropWhile_cons, h x (by simp)]
    simp

theorem stripWs_eq_self {l : List Char} (h : ∀ c ∈ l, isPyWs c = false) :
    stripWs l = l := by
  unfold stripWs
  rw [dropWhile_eq_self_of_all h,
      dropWhile_eq_self_of_all (fun c hc => h c (List.mem_reverse.mp hc)),
      List.reverse_reverse]

theorem parseDigitsAcc_append (xs ys : List Char) : ∀ acc,
    parseDigitsAcc acc (xs ++ ys) =
      match parseDigitsAcc acc xs with
      | none => none
      | some a => parseDigitsAcc a ys := by
  induction xs with
  | nil => intro acc; rfl
  | cons c cs ih =>
    intro acc
    simp only [List.cons_append, parseDigitsAcc]
    cases digitVal c with
    | none => rfl
    | some d => exact ih _

theorem parseDigitsAcc_natDigits (n : Nat) : ∀ acc,
    parseDigitsAcc acc (natDigits n) = some (acc * 10 ^ (natDigits n).length + n) := by
  induction n using Nat.strong_induction_on with
  | _ n ih =>
    intro acc
    rw [natDigits]
    split
    · next h =>
      simp [parseDigitsAcc, digitVal_digitChar h]
    · next h =>
      rw [parseDigitsAcc_append, ih (n / 10) (Nat.div_lt_self (by omega) (by omega)) acc]
      simp only [parseDigitsAcc, digitVal_digitChar (Nat.mod_lt n (by omega)),
        List.length_append, List.length_singleton]
      have hdm := Nat.div_add_mod n 10
      rw [pow_succ]
      congr 1
      ring_nf
      omega

theorem parseNatChars_natDigits (n : Nat) : parseNatChars (natDigits n) = some n := by
  have hne := natDigits_ne_nil (n := n)
  rw [parseNatChars, if_neg (by simpa [List.isEmpty_iff] using hne)]
  simpa using parseDigitsAcc_natDigits n 0

theorem natDigits_not_ws {n : Nat} : ∀ c ∈ natDigits n, isPyWs c = false :=
  fun c hc => digit_not_ws (natDigits_mem c hc).1 (natDigits_mem c hc).2

theorem intChars_not_ws {i : Int} : ∀ c ∈ intChars i, isPyWs c = false := by
  intro c hc
  unfold intChars at hc
  split at hc
  · rcases List.mem_cons.mp hc with rfl | h
    · decide
    · exact natDigits_not_ws c h
  · exact natDigits_not_ws c hc

theorem natDigits_head_digit {n : Nat} {c : Char} {cs : List Char}
    (h : natDigits n = c :: cs) : '0' ≤ c ∧ c ≤ '9' :=
  natDigits_mem c (h ▸ List.mem_cons_self c cs)

theorem pyInt_natDigits (n : Nat) : pyInt (natDigits n) = .ok (n : Int) := by
  unfold pyInt
  rw [stripWs_eq_self natDigits_not_ws]
  obtain ⟨c, cs, hcons⟩ : ∃ c cs, natDigits n = c :: cs := by
    cases h : natDigits n with
    | nil => exact absurd h natDigits_ne_nil
    | cons c cs => exact ⟨c, cs, rfl⟩
  have hd := natDigits_head_digit hcons
  have h1 : (natDigits n).head? ≠ some '-' := by
    rw [hcons]; simpa using digit_not_minus hd.1 hd.2
  have h2 : (natDigits n).head? ≠ some '+' := by
    rw [hcons]; simpa using digit_not_plus hd.1 hd.2
  rw [if_neg h1, if_neg h2, parseNatChars_natDigits]

theorem pyInt_intChars (i : Int) : pyInt (intChars i) = .ok i := by
  by_cases hneg : i < 0
  · have hi : intChars i = '-' :: natDigits i.natAbs := by
      unfold intChars; rw [if_pos hneg]
    unfold pyInt
    rw [hi, stripWs_eq_self (by intro c hc; apply intChars_not_ws; rw [hi]; exact hc)]
    have habs : (i.natAbs : Int) = -i := by omega
    simp only [List.head?_cons, if_pos rfl, List.tail_cons, parseNatChars_natDigits,
      if_true, habs, neg_neg]
  · unfold intChars
    rw [if_neg hneg]
    rw [pyInt_natDigits]
    congr 1
    omega

theorem intChars_mem {i : Int} : ∀ c ∈ intChars i, c = '-' ∨ ('0' ≤ c ∧ c ≤ '9') := by
  intro c hc
  unfold intChars at hc
  split at hc
  · rcases List.mem_cons.mp hc with rfl | h
    · exact Or.inl rfl
    · exact Or.inr (natDigits_mem c h)
  · exact Or.inr (natDigits_mem c hc)

theorem intChars_no_slash {i : Int} : ∀ c ∈ intChars i, c ≠ '/' := by
  intro c hc
  rcases intChars_mem c hc with rfl | hd
  · decide
  · exact digit_not_slash hd.1 hd.2

theorem takeWhile_append_all {p : α → Bool} {l₁ l₂ : List α}
    (h : ∀ c ∈ l₁, p c = true) :
    (l₁ ++ l₂).takeWhile p = l₁ ++ l₂.takeWhile p := by
  induction l₁ with
  | nil => rfl
  | cons x xs ih =>
    rw [List.cons_append, List.takeWhile_cons, h x (by simp), List.cons_append,
      ih (fun c hc => h c (by simp [hc]))]
    simp

theorem dropWhile_append_all {p : α → Bool} {l₁ l₂ : List α}
    (h : ∀ c ∈ l₁, p c = true) :
    (l₁ ++ l₂).dropWhile p = l₂.dropWhile p := by
  induction l₁ with
  | nil => rfl
  | cons x xs ih =>
    rw [List.cons_append, List.dropWhile_cons, h x (by simp),
      ih (fun c hc => h c (by simp [hc]))]
    simp

/-- Round trip: parsing a canonical fraction string recovers the rational.
(Helper used both for the round-trip claim and for injectivity of the
serialization.) -/
theorem parse_print_roundtrip (x : Rat) :
    string_to_fraction (fraction_to_string x) = .ok x := by
  by_cases hden : x.den = 1
  · have hstr : fraction_to_string x = ⟨intChars x.num⟩ := by
      unfold fraction_to_string; rw [if_pos hden]
    rw [hstr]
    unfold string_to_fraction string_to_fraction_chars
    have hdata : (⟨intChars x.num⟩ : String).data = intChars x.num := rfl
    rw [hdata, stripWs_eq_self intChars_not_ws]
    rw [if_neg (by intro hmem; exact intChars_no_slash '/' hmem rfl)]
    have : ((x.num : Rat)) = x := by
      conv_rhs => rw [← Rat.num_divInt_den x]
      rw [hden]
      push_cast
      rw [Rat.divInt_one]
    simp only [pyInt_intChars, this]
  · have hstr : fraction_to_string x = ⟨intChars x.num ++ '/' :: natDigits x.den⟩ := by
      unfold fraction_to_string; rw [if_neg hden]
    rw [hstr]
    unfold string_to_fraction string_to_fraction_chars
    have hdata : (⟨intChars x.num ++ '/' :: natDigits x.den⟩ : String).data
        = intChars x.num ++ '/' :: natDigits x.den := rfl
    rw [hdata]
    have hws : ∀ c ∈ intChars x.num ++ '/' :: natDigits x.den, isPyWs c = false := by
      intro c hc
      rcases List.mem_append.mp hc with h1 | h2
      · exact intChars_not_ws c h1
      · rcases List.mem_cons.mp h2 with rfl | h3
        · decide
        · exact natDigits_not_ws c h3
    rw [stripWs_eq_self hws]
    rw [if_pos (by simp)]
    have hne : ∀ c ∈ intChars x.num, (c ≠ '/' : Bool) = true := by
      intro c hc
      simpa using intChars_no_slash c hc
    have htake : (intChars x.num ++ '/' :: natDigits x.den).takeWhile (· ≠ '/')
        = intChars x.num := by
      rw [takeWhile_append_all hne]
      simp
    have hdrop : ((intChars x.num ++ '/' :: natDigits x.den).dropWhile (· ≠ '/')).tail
        = natDigits x.den := by
      rw [dropWhile_append_all hne]
      simp
    have hd0 : ¬ ((x.den : Int)) = 0 := by
      have := x.den_pos; omega
    simp only [htake, hdrop, pyInt_intChars, pyInt_natDigits, if_neg hd0,
      Rat.num_divInt_den]

/-- The canonical serialization is injective on exact rationals. -/
theorem fraction_to_string_injective : Function.Injective fraction_to_string := by
  intro a b h
  have ha := parse_print_roundtrip a
  have hb := parse_print_roundtrip b
  rw [h, hb] at ha
  exact (Except.ok.injEq _ _).mp ha.symm

theorem evalPass1_eq_specCollapse :
    ∀ (pairs : List (Op × Int)) (a : Rat) (below : List Rat) (opsRev : List Op),
    evalPass1 a below opsRev pairs =
      (specCollapse a (pairs.map (fun p => (p.1, (p.2 : Rat))))).map
        (fun p => (below.reverse ++ p.1, opsRev.reverse ++ p.2)) := by
  intro pairs
  induction pairs with
  | nil =>
    intro a below opsRev
    simp [evalPass1, specCollapse]
  | cons hd rest ih =>
    intro a below opsRev
    obtain ⟨op, bi⟩ := hd
    cases op with
    | mul =>
      simp only [evalPass1, List.map_cons, specCollapse, apply_mul_div, if_pos (Or.inl rfl)]
      exact ih _ _ _
    | div =>
      simp only [evalPass1, List.map_cons, specCollapse, apply_mul_div,
        if_pos (Or.inr rfl)]
      by_cases hb : ((bi : Rat)) = 0
      · simp [hb]
      · simp only [if_neg hb]
        exact ih _ _ _
    | add =>
      simp only [evalPass1, List.map_cons, specCollapse,
        if_neg (show ¬(Op.add = Op.mul ∨ Op.add = Op.div) by decide)]
      rw [ih]
      cases h : specCollapse ((bi : Rat)) (rest.map (fun p => (p.1, (p.2 : Rat)))) with
      | none => simp
      | some p => simp
    | sub =>
      simp only [evalPass1, List.map_cons, specCollapse,
        if_neg (show ¬(Op.sub = Op.mul ∨ Op.sub = Op.div) by decide)]
      rw [ih]
      cases h : specCollapse ((bi : Rat)) (rest.map (fun p => (p.1, (p.2 : Rat)))) with
      | none => simp
      | some p => simp

theorem specCollapse_shape :
    ∀ (pairs : List (Op × Rat)) (a : Rat) (vs : List Rat) (os : List Op),
    specCollapse a pairs = some (vs, os) →
      vs.length = os.length + 1 ∧ (∀ o ∈ os, o = Op.add ∨ o = Op.sub) := by
  intro pairs
  induction pairs with
  | nil =>
    intro a vs os h
    simp only [specCollapse, Option.some.injEq, Prod.mk.injEq] at h
    obtain ⟨rfl, rfl⟩ := h
    simp
  | cons hd rest ih =>
    intro a vs os h
    obtain ⟨op, b⟩ := hd
    cases op with
    | mul => exact ih _ _ _ h
    | div =>
      by_cases hb : b = 0
      · simp [specCollapse, hb] at h
      · rw [specCollapse, if_neg hb] at h
        exact ih _ _ _ h
    | add =>
      simp only [specCollapse] at h
      cases hrec : specCollapse b rest with
      | none => rw [hrec] at h; simp at h
      | some p =>
        rw [hrec] at h
        simp only [Option.map_some', Option.some.injEq, Prod.mk.injEq] at h
        obtain ⟨rfl, rfl⟩ := h
        obtain ⟨h1, h2⟩ := ih _ _ _ hrec
        refine ⟨by simpa using h1, ?_⟩
        intro o ho
        rcases List.mem_cons.mp ho with rfl | ho'
        · exact Or.inl rfl
        · exact h2 o ho'
    | sub =>
      simp only [specCollapse] at h
      cases hrec : specCollapse b rest with
      | none => rw [hrec] at h; simp at h
      | some p =>
        rw [hrec] at h
        simp only [Option.map_some', Option.some.injEq, Prod.mk.injEq] at h
        obtain ⟨rfl, rfl⟩ := h
        obtain ⟨h1, h2⟩ := ih _ _ _ hrec
        refine ⟨by simpa using h1, ?_⟩
        intro o ho
        rcases List.mem_cons.mp ho with rfl | ho'
        · exact Or.inr rfl
        · exact h2 o ho'

theorem specCollapse_isSome :
    ∀ (pairs : List (Op × Rat)) (a : Rat), (∀ p ∈ pairs, p.2 ≠ 0) →
    (specCollapse a pairs).isSome := by
  intro pairs
  induction pairs with
  | nil => intro a _; simp [specCollapse]
  | cons hd rest ih =>
    intro a h
    obtain ⟨op, b⟩ := hd
    have hrest : ∀ p ∈ rest, p.2 ≠ 0 := fun p hp => h p (by simp [hp])
    cases op with
    | mul => exact ih _ hrest
    | div =>
      rw [specCollapse, if_neg (h (Op.div, b) (by simp))]
      exact ih _ hrest
    | add =>
      simp only [specCollapse]
      simpa using ih b hrest
    | sub =>
      simp only [specCollapse]
      simpa using ih b hrest

theorem evalPass2_eq_specAddSub :
    ∀ (os : List Op) (vs : List Rat) (a : Rat),
    (∀ o ∈ os, o = Op.add ∨ o = Op.sub) →
    evalPass2 a (os.zip vs) = some (specAddSub a vs os) := by
  intro os
  induction os with
  | nil => intro vs a _; cases vs <;> rfl
  | cons o os' ih =>
    intro vs a h
    cases vs with
    | nil => cases o <;> rfl
    | cons b vs' =>
      rcases h o (by simp) with rfl | rfl
      · exact ih vs' (a + b) (fun o ho => h o (by simp [ho]))
      · exact ih vs' (a - b) (fun o ho => h o (by simp [ho]))

/-- The embedded two-pass evaluator agrees with the specification's
collapse-then-fold description. -/
theorem evalLineCore_eq_spec (values : List Int) (ops : List Op) :
    evalLineCore values ops = specEvalLine values ops := by
  cases values with
  | nil => rfl
  | cons v vs =>
    rw [evalLineCore, specEvalLine, evalPass1_eq_specCollapse]
    cases h : specCollapse ((v : Rat)) ((ops.zip vs).map (fun p => (p.1, (p.2 : Rat)))) with
    | none => simp
    | some p =>
      obtain ⟨tv, to'⟩ := p
      obtain ⟨hlen, hops⟩ := specCollapse_shape _ _ _ _ h
      cases tv with
      | nil => simp at hlen
      | cons t0 trest =>
        simp only [Option.map_some', List.reverse_nil, List.nil_append]
        rw [evalPass2_eq_specAddSub to' trest t0 hops]

/-- On a line whose values are all nonzero, the evaluator never returns the
division-by-zero sentinel. -/
theorem evalLineCore_isSome (values : List Int) (ops : List Op)
    (hne : values ≠ []) (hnz : ∀ x ∈ values, x ≠ 0) :
    (evalLineCore values ops).isSome := by
  cases values with
  | nil => exact absurd rfl hne
  | cons v vs =>
    rw [evalLineCore, evalPass1_eq_specCollapse]
    have hz : ∀ p ∈ (ops.zip vs).map (fun p => (p.1, (p.2 : Rat))), p.2 ≠ 0 := by
      intro p hp
      obtain ⟨q, hq, rfl⟩ := List.mem_map.mp hp
      have := (List.of_mem_zip hq).2
      have := hnz q.2 (by simp [this])
      simpa using this
    have hsome := specCollapse_isSome _ ((v : Rat)) hz
    cases h : specCollapse ((v : Rat)) ((ops.zip vs).map (fun p => (p.1, (p.2 : Rat)))) with
    | none => rw [h] at hsome; simp at hsome
    | some p =>
      obtain ⟨tv, to'⟩ := p
      obtain ⟨hlen, hops⟩ := specCollapse_shape _ _ _ _ h
      cases tv with
      | nil => simp at hlen
      | cons t0 trest =>
        simp only [Option.map_some', List.reverse_nil, List.nil_append]
        rw [evalPass2_eq_specAddSub to' trest t0 hops]
        simp

/-! ## Claim theorems -/

/-- C4: for every value list and operator list with
`len(operators) == len(values) - 1`, line evaluation never raises: it
returns exactly the collapse-then-fold result over exact rationals
(`*`/`/` collapsed left-to-right into a reduced list, then `+`/`-`
applied left-to-right), with division by exact zero yielding the sentinel
`none` rather than an exception.  In particular
`evaluateLine([2,3,4], ['+','*']) = 14`,
`evaluateLine([8,2,2], ['/','+']) = 6`, and `evaluateLine([5,0], ['/'])`
is undefined. -/
theorem C4_eval_line_two_pass (values : List Int) (ops : List Op)
    (h1 : 1 ≤ values.length) (h2 : ops.length = values.length - 1) :
    eval_line_with_precedence values ops = .ok (specEvalLine values ops) ∧
    eval_line_with_precedence [2, 3, 4] [.add, .mul] = .ok (some 14) ∧
    eval_line_with_precedence [8, 2, 2] [.div, .add] = .ok (some 6) ∧
    eval_line_with_precedence [5, 0] [.div] = .ok none := by
  refine ⟨?_, by decide, by decide, by decide⟩
  rw [eval_line_with_precedence, if_pos ⟨h1, h2⟩, evalLineCore_eq_spec]

/-- Witness for C4 at the concrete line `[5, 2]` with operator `*`. -/
theorem C4_witness :
    1 ≤ ([5, 2] : List Int).length ∧
    eval_line_with_precedence [5, 2] [.mul] = .ok (specEvalLine [5, 2] [.mul]) :=
  ⟨by decide, (C4_eval_line_two_pass [5, 2] [.mul] (by decide) (by decide)).1⟩

/-- C7: for every exact rational `x`,
`fromCanonicalString(toCanonicalString(x)) == x` — the canonical
serialization (integer form for denominator 1, `num/den` with the sign on
the numerator otherwise) parses back to exactly `x`, integers and negative
values included. -/
theorem C7_fraction_string_roundtrip (x : Rat) :
    string_to_fraction (fraction_to_string x) = .ok x :=
  parse_print_roundtrip x

/-- C8 counterexample: on the zero-denominator string `"1/0"` the parse
fails with `ZeroDivisionError` (raised by `Fraction(1, 0)`), not with the
`ValueError` format error the claim promises. -/
theorem C8_counterexample :
    string_to_fraction "1/0" = .error .zeroDivisionError := by
  decide

/-- C8 amended: strings with missing integer parts fail with the
`ValueError` format error, but a zero denominator fails with
`ZeroDivisionError`, a different exception kind that escapes the parse. -/
theorem C8_amended_parse_errors :
    string_to_fraction "/4" = .error (.valueError "invalid literal for int") ∧
    string_to_fraction "3/" = .error (.valueError "invalid literal for int") ∧
    string_to_fraction "1/0" = .error .zeroDivisionError := by
  exact ⟨by decide, by decide, by decide⟩

/-- C10: the batch-local duplicate check over serialized board
specifications agrees with object-level structural equality —
`_is_duplicate(p, [_as_board_spec(q)])` holds exactly when
`p.is_equal_to(q)`, because the canonical fraction-string serialization is
injective on exact rationals. -/
theorem C10_duplicate_iff_structurally_equal (p q : Puzzle) :
    is_duplicate p [as_board_spec q] = true ↔ p.is_equal_to q = true := by
  simp only [is_duplicate, List.any_cons, List.any_nil, Bool.or_false, as_board_spec,
    Puzzle.is_equal_to, Bool.and_eq_true, decide_eq_true_eq]
  constructor
  · rintro ⟨⟨⟨h1, h2⟩, h3⟩, h4⟩
    exact ⟨⟨⟨h1.symm, h2.symm⟩,
      List.map_injective_iff.mpr fraction_to_string_injective h3.symm⟩, h4.symm⟩
  · rintro ⟨⟨⟨h1, h2⟩, h3⟩, h4⟩
    exact ⟨⟨⟨h1.symm, h2.symm⟩, by rw [h3]⟩, h4.symm⟩

/-! ### Shape lemmas for generation -/

theorem sampleRep_length (xs : List α) (d : α) :
    ∀ (n : Nat) (g : Rng), (sampleRep xs d n g).1.length = n := by
  intro n
  induction n with
  | zero => intro g; rfl
  | succ n ih =>
    intro g
    simp only [sampleRep, List.length_cons]
    rw [ih]

theorem sampleRep_rng (xs : List α) (d : α) :
    ∀ (n : Nat) (g : Rng), (sampleRep xs d n g).2 = ⟨g.pos + n, g.f⟩ := by
  intro n
  induction n with
  | zero => intro g; rfl
  | succ n ih =>
    intro g
    simp only [sampleRep]
    rw [ih]
    simp only [Rng.choiceD, Rng.draw]
    congr 1
    omega

theorem sampleRep_mem (xs : List α) (d : α) (hxs : xs ≠ []) :
    ∀ (n : Nat) (g : Rng), ∀ v ∈ (sampleRep xs d n g).1, v ∈ xs := by
  intro n
  induction n with
  | zero => intro g v hv; simp [sampleRep] at hv
  | succ n ih =>
    intro g v hv
    simp only [sampleRep, List.mem_cons] at hv
    rcases hv with rfl | hv
    · have hlen : 0 < xs.length := List.length_pos.mpr hxs
      have hlt : g.draw.1 % xs.length < xs.length := Nat.mod_lt _ hlen
      show xs.getD (g.draw.1 % xs.length) d ∈ xs
      rw [List.getD_eq_getElem _ _ hlt]
      exact List.getElem_mem hlt
    · exact ih _ v hv

theorem chunksOf_map_length :
    ∀ (Ls : List Nat) (xs : List α), Ls.sum ≤ xs.length →
    (chunksOf Ls xs).1.map List.length = Ls ∧
    (chunksOf Ls xs).2.length = xs.length - Ls.sum := by
  intro Ls
  induction Ls with
  | nil => intro xs _; simp [chunksOf]
  | cons L Ls' ih =>
    intro xs h
    simp only [List.sum_cons] at h
    have hL : L ≤ xs.length := by omega
    have hrest : Ls'.sum ≤ (xs.drop L).length := by
      rw [List.length_drop]; omega
    obtain ⟨h1, h2⟩ := ih (xs.drop L) hrest
    simp only [chunksOf, List.map_cons, List.length_take]
    refine ⟨by rw [h1]; congr 1; omega, ?_⟩
    rw [h2, List.length_drop, List.sum_cons]
    omega

theorem getD_replicate_append_nat (n v last r : Nat) :
    ((List.replicate n v ++ [last] : List Nat)).getD r 0 =
      if r < n then v else if r = n then last else 0 := by
  by_cases h1 : r < n
  · rw [List.getD_append _ _ _ _ (by simpa using h1), if_pos h1]
    rw [List.getD_eq_getElem _ _ (by simpa using h1)]
    simp
  · rw [List.getD_append_right _ _ _ _ (by simpa using h1), if_neg h1]
    by_cases h2 : r = n
    · subst h2
      simp
    · rw [if_neg h2]
      have : 1 ≤ r - (List.replicate n v).length := by simp; omega
      rw [List.getD_eq_default]
      simpa using this

theorem getD_length_of_map_length {l : List (List α)} {Ls : List Nat}
    (h : l.map List.length = Ls) (r : Nat) (hr : r < Ls.length) :
    (l.getD r []).length = Ls.getD r 0 := by
  subst h
  have hrl : r < l.length := by simpa using hr
  rw [List.getD_eq_getElem _ _ hrl, List.getD_eq_getElem _ _ (by simpa using hr)]
  simp

theorem foldl_append_length (f : Nat → List α) (init : List α) :
    ∀ (m : Nat),
    ((List.range m).foldl (fun acc r => acc ++ f r) init).length =
      init.length + ((List.range m).map (fun r => (f r).length)).sum := by
  intro m
  induction m with
  | zero => simp
  | succ m ih =>
    rw [List.range_succ, List.foldl_append, List.map_append, List.sum_append]
    simp only [List.foldl_cons, List.foldl_nil, List.length_append, ih,
      List.map_cons, List.map_nil, List.sum_cons, List.sum_nil]
    omega

theorem base_pool_length (f : Op × Int → List Op) :
    ∀ (ex : List (Op × Int)) (init : List Op),
    (ex.foldl (fun acc p => acc ++ if 0 < p.2 then List.replicate p.2.toNat p.1 else []) init).length
      = init.length + (ex.map (fun p => p.2.toNat)).sum := by
  intro ex
  induction ex with
  | nil => intro init; simp
  | cons q ex' ih =>
    intro init
    simp only [List.foldl_cons, List.map_cons, List.sum_cons]
    rw [ih]
    by_cases h : 0 < q.2
    · simp only [if_pos h, List.length_append, List.length_replicate]
      omega
    · simp only [if_neg h, List.append_nil]
      have : q.2.toNat = 0 := by omega
      omega

theorem sum_toNat_of_nonneg :
    ∀ (l : List Int), (∀ x ∈ l, 0 ≤ x) → (l.map Int.toNat).sum = l.sum.toNat := by
  intro l
  induction l with
  | nil => intro _; rfl
  | cons x t ih =>
    intro h
    have hx : 0 ≤ x := h x (by simp)
    have ht : 0 ≤ t.sum := List.sum_nonneg (fun y hy => h y (by simp [hy]))
    simp only [List.map_cons, List.sum_cons]
    rw [ih (fun y hy => h y (by simp [hy]))]
    omega

theorem mem_upsertExact {ex : List (Op × Int)} {k : Op} {v : Int} :
    ∀ q ∈ upsertExact ex k v, q ∈ ex ∨ q = (k, v) := by
  induction ex with
  | nil => intro q hq; simp [upsertExact] at hq; simp [hq]
  | cons p t ih =>
    intro q hq
    rw [upsertExact] at hq
    by_cases hk : p.1 = k
    · rw [if_pos (by rw [← hk])] at hq
      rcases List.mem_cons.mp hq with rfl | hq'
      · exact Or.inr rfl
      · exact Or.inl (by simp [hq'])
    · rw [if_neg (by rwa [← Prod.mk.eta (p := p)] at hk ⊢ <;> exact hk)] at hq
      rcases List.mem_cons.mp hq with rfl | hq'
      · exact Or.inl (by simp)
      · rcases ih q hq' with h | h
        · exact Or.inl (by simp [h])
        · exact Or.inr h

theorem normalizeLoop_nonneg :
    ∀ (spec : List OpSpecItem) (ex : List (Op × Int)) (unl : List Op)
      (ex' : List (Op × Int)) (unl' : List Op),
    (∀ q ∈ ex, 0 ≤ q.2) → normalizeLoop spec ex unl = .ok (ex', unl') →
    ∀ q ∈ ex', 0 ≤ q.2 := by
  intro spec
  induction spec with
  | nil =>
    intro ex unl ex' unl' hex h
    simp only [normalizeLoop, Except.ok.injEq, Prod.mk.injEq] at h
    obtain ⟨rfl, rfl⟩ := h
    exact hex
  | cons item rest ih =>
    intro ex unl ex' unl' hex h
    match item with
    | .one op => exact ih _ _ _ _ hex h
    | .two op none => exact ih _ _ _ _ hex h
    | .two op (some c) =>
      rw [normalizeLoop] at h
      by_cases hc : c < 0
      · rw [if_pos hc] at h; simp at h
      · rw [if_neg hc] at h
        refine ih _ _ _ _ ?_ h
        intro q hq
        rcases mem_upsertExact q hq with h' | rfl
        · exact hex q h'
        · omega

theorem normalize_op_spec_nonneg {spec : List OpSpecItem} {ex : List (Op × Int)}
    {unl : List Op} (h : normalize_op_spec spec = .ok (ex, unl)) :
    ∀ q ∈ ex, 0 ≤ q.2 := by
  rw [normalize_op_spec] at h
  split at h
  · simp at h
  · split at h
    · simp at h
    · rename_i ex₀ unl₀ hloop
      split at h
      · simp at h
      · split at h
        · simp at h
        · simp only [Except.ok.injEq, Prod.mk.injEq] at h
          obtain ⟨rfl, rfl⟩ := h
          exact normalizeLoop_nonneg spec [] [] _ _ (by simp) hloop

theorem total_pos {N : Nat} (hN : 2 ≤ N) : 2 ≤ 2 * N * (N - 1) - 2 := by
  have h1 : 2 * 1 ≤ N * (N - 1) := Nat.mul_le_mul hN (by omega)
  have h2 : 2 * N * (N - 1) = 2 * (N * (N - 1)) := by ring
  omega

theorem mesh_lengths_sum {N : Nat} (hN : 2 ≤ N) :
    (List.replicate (N - 1) (N - 1) ++ [N - 2]).sum
      + (List.replicate (N - 2) N ++ [N - 1]).sum = 2 * N * (N - 1) - 2 := by
  have h2 : 2 * N * (N - 1) = 2 * (N * (N - 1)) := by ring
  have h3 : (N - 1) * (N - 1) + (N - 2) * N + (2 * N - 3) = 2 * (N * (N - 1)) - 2 := by
    obtain ⟨m, rfl⟩ : ∃ m, N = m + 2 := ⟨N - 2, by omega⟩
    have e1 : m + 2 - 1 = m + 1 := by omega
    have e2 : m + 2 - 2 = m := by omega
    rw [e1, e2]
    have key : (m + 1) * (m + 1) + m * (m + 2) + (2 * m + 1) + 2
        = 2 * ((m + 2) * (m + 1)) := by ring
    omega
  simp only [List.sum_append, List.sum_replicate, smul_eq_mul, List.sum_cons, List.sum_nil]
  omega

theorem flat_len_arith {N : Nat} (hN : 2 ≤ N) :
    (N - 2) * (N - 1 + N) + (N - 1 + (N - 1)) + (N - 2) = 2 * N * (N - 1) - 2 := by
  obtain ⟨m, rfl⟩ : ∃ m, N = m + 2 := ⟨N - 2, by omega⟩
  have e1 : m + 2 - 1 = m + 1 := by omega
  have e2 : m + 2 - 2 = m := by omega
  rw [e1, e2]
  have key : m * (m + 1 + (m + 2)) + (m + 1 + (m + 1)) + m + 2
      = 2 * (m + 2) * (m + 1) := by ring
  omega

/-- Successful `_gen_operators` runs produce per-row and per-level slices of
exactly the documented lengths, and a flat mesh of length `2*N*(N-1) - 2`. -/
theorem gen_operators_ok {N : Nat} {ex : List (Op × Int)} {unl : List Op} {g : Rng}
    {hops vops : List (List Op)} {flat : List Op} {g' : Rng}
    (hN : 2 ≤ N) (hpos : ∀ q ∈ ex, 0 ≤ q.2)
    (h : gen_operators N ex unl g = (.ok (hops, vops, flat), g')) :
    hops.map List.length = List.replicate (N - 1) (N - 1) ++ [N - 2] ∧
    vops.map List.length = List.replicate (N - 2) N ++ [N - 1] ∧
    (∀ r, r < N - 1 → (hops.getD r []).length = N - 1) ∧
    (hops.getD (N - 1) []).length = N - 2 ∧
    flat.length = 2 * N * (N - 1) - 2 := by
  rw [gen_operators] at h
  rw [if_neg (by omega)] at h
  have htot := total_pos hN
  rw [if_neg (by omega)] at h
  simp only [] at h
  split at h
  · simp at h
  · rename_i hsum
    split at h
    · simp at h
    · rename_i hrem
      simp only [Except.ok.injEq, Prod.mk.injEq] at h
      obtain ⟨⟨rfl, rfl, rfl⟩, rfl⟩ := h
      set total := 2 * N * (N - 1) - 2 with htotdef
      set exact_sum : Int := (ex.map (fun p => p.2)).sum with hesdef
      have hes0 : 0 ≤ exact_sum := List.sum_nonneg (by
        intro x hx
        obtain ⟨q, hq, rfl⟩ := List.mem_map.mp hx
        exact hpos q hq)
      have hest : exact_sum ≤ (total : Int) := by omega
      set base := ex.foldl
        (fun acc p => acc ++ if 0 < p.2 then List.replicate p.2.toNat p.1 else []) []
        with hbase
      have hbl : base.length = exact_sum.toNat := by
        rw [hbase, base_pool_length (fun p => []) ex []]
        simp only [List.length_nil, Nat.zero_add]
        rw [hesdef, ← sum_toNat_of_nonneg (ex.map (fun p => p.2))
          (by intro x hx; obtain ⟨q, hq, rfl⟩ := List.mem_map.mp hx; exact hpos q hq),
          List.map_map]
        rfl
      set fills := (sampleRep unl Op.add ((total : Int) - exact_sum).toNat g).1 with hfills
      have hfl : fills.length = ((total : Int) - exact_sum).toNat := by
        rw [hfills, sampleRep_length]
      set pool := (shuffle (sampleRep unl Op.add ((total : Int) - exact_sum).toNat g).2
        (base ++ fills)).1 with hpool
      have hpl : pool.length = total := by
        rw [hpool, shuffle_length, List.length_append, hbl, hfl]
        omega
      have hsum2 := mesh_lengths_sum hN
      have hhsum : (List.replicate (N - 1) (N - 1) ++ [N - 2]).sum ≤ pool.length := by
        omega
      obtain ⟨hh1, hh2⟩ := chunksOf_map_length (List.replicate (N - 1) (N - 1) ++ [N - 2])
        pool hhsum
      have hvsum : (List.replicate (N - 2) N ++ [N - 1]).sum
          ≤ (chunksOf (List.replicate (N - 1) (N - 1) ++ [N - 2]) pool).2.length := by
        rw [hh2]; omega
      obtain ⟨hv1, _⟩ := chunksOf_map_length (List.replicate (N - 2) N ++ [N - 1]) _ hvsum
      set hops := (chunksOf (List.replicate (N - 1) (N - 1) ++ [N - 2]) pool).1 with hhops
      set vops := (chunksOf (List.replicate (N - 2) N ++ [N - 1])
        (chunksOf (List.replicate (N - 1) (N - 1) ++ [N - 2]) pool).2).1 with hvops
      have hlenh0 : (List.replicate (N - 1) (N - 1) ++ [N - 2] : List Nat).length = N := by
        simp only [List.length_append, List.length_replicate, List.length_cons,
          List.length_nil]
        omega
      have hhlen0 : ∀ r, r < N - 1 → (hops.getD r []).length = N - 1 := by
        intro r hr
        rw [getD_length_of_map_length hh1 r (by rw [hlenh0]; omega),
          getD_replicate_append_nat, if_pos hr]
      have hhlast0 : (hops.getD (N - 1) []).length = N - 2 := by
        rw [getD_length_of_map_length hh1 (N - 1) (by rw [hlenh0]; omega),
          getD_replicate_append_nat, if_neg (by omega), if_pos rfl]
      refine ⟨hh1, hv1, hhlen0, hhlast0, ?_⟩
      have hfun : (fun (acc : List Op) (r : Nat) => acc ++ hops.getD r [] ++ vops.getD r [])
          = (fun acc r => acc ++ (hops.getD r [] ++ vops.getD r [])) := by
        funext a r
        rw [List.append_assoc]
      rw [List.length_append, hfun,
        foldl_append_length (fun r => hops.getD r [] ++ vops.getD r []) []]
      have hlenv : (List.replicate (N - 2) N ++ [N - 1] : List Nat).length = N - 1 := by
        simp only [List.length_append, List.length_replicate, List.length_cons,
          List.length_nil]
        omega
      have hvlen : ∀ r < N - 1, (vops.getD r []).length
          = if r < N - 2 then N else N - 1 := by
        intro r hr
        rw [getD_length_of_map_length hv1 r (by rw [hlenv]; omega),
          getD_replicate_append_nat]
        by_cases h2 : r < N - 2
        · rw [if_pos h2, if_pos h2]
        · rw [if_neg h2, if_neg h2, if_pos (show r = N - 2 by omega)]
      have hmap : (List.range (N - 1)).map
            (fun r => (hops.getD r [] ++ vops.getD r []).length)
          = (List.range (N - 1)).map
            (fun r => (N - 1) + (if r < N - 2 then N else N - 1)) := by
        apply List.map_congr_left
        intro r hr
        rw [List.mem_range] at hr
        rw [List.length_append, hhlen0 r hr, hvlen r hr]
      rw [hmap, hhlast0]
      have hrange : List.range (N - 1) = List.range (N - 2) ++ [N - 2] := by
        rw [show N - 1 = (N - 2) + 1 by omega, List.range_succ]
      rw [hrange, List.map_append, List.sum_append]
      have hconst : (List.range (N - 2)).map
            (fun r => (N - 1) + (if r < N - 2 then N else N - 1))
          = (List.range (N - 2)).map (fun _ => (N - 1) + N) := by
        apply List.map_congr_left
        intro r hr
        rw [List.mem_range] at hr
        rw [if_pos hr]
      rw [hconst]
      have hcsum : ((List.range (N - 2)).map (fun _ => (N - 1) + N)).sum
          = (N - 2) * ((N - 1) + N) := by
        rw [List.map_const', List.sum_replicate, smul_eq_mul, List.length_range]
      rw [hcsum]
      simp only [List.map_cons, List.map_nil, List.sum_cons, List.sum_nil,
        if_neg (lt_irrefl (N - 2)), List.length_nil]
      have harith := flat_len_arith hN
      omega

theorem shuffleGo_mem : ∀ (n : Nat) (g : Rng) (xs : List α),
    ∀ v ∈ (shuffleGo n g xs).1, v ∈ xs := by
  intro n
  induction n with
  | zero => intro g xs v hv; simp [shuffleGo] at hv
  | succ n ih =>
    intro g xs v hv
    match xs with
    | [] => simp [shuffleGo] at hv
    | x :: rest =>
      simp only [shuffleGo, List.mem_cons] at hv
      rcases hv with rfl | hv
      · have hlt : g.draw.1 % (x :: rest).length < (x :: rest).length :=
          Nat.mod_lt _ (by simp)
        rw [List.getD_eq_getElem _ _ hlt]
        exact List.getElem_mem hlt
      · have hsub := List.eraseIdx_sublist (x :: rest)
          (g.draw.1 % (x :: rest).length)
        exact hsub.mem (ih g.draw.2 _ v hv)

theorem shuffle_mem (g : Rng) (xs : List α) : ∀ v ∈ (shuffle g xs).1, v ∈ xs :=
  shuffleGo_mem xs.length g xs

/-- Inversion of a successful `Puzzle.__init__`: the components each step
produced, and the documented field values. -/
theorem mkPuzzle_ok {N : Nat} {inst : Rng} {sh : Bool} {spec : Option (List OpSpecItem)}
    {choices : Option (List Int)} {g : Rng} {p : Puzzle} {i g' : Rng}
    (h : mkPuzzle N inst sh spec choices g = (.ok p, i, g')) :
    2 ≤ N ∧
    ∃ ex unl ch hops vops flat expd,
      normalize_op_spec (spec.getD DEFAULT_OP_SPEC) = .ok (ex, unl) ∧
      normalize_number_choices choices = .ok ch ∧
      gen_operators N ex unl g = (.ok (hops, vops, flat), g') ∧
      compute_expected N (gen_numbers_without_blank N ch inst).1 hops vops = .ok expd ∧
      p.N = N ∧ p.hops_per_row = hops ∧ p.vops_per_level = vops ∧
      p.operators = flat ∧ p.expected = expd ∧
      p.numbers = (if sh then (shuffle (gen_numbers_without_blank N ch inst).2
          (gen_numbers_without_blank N ch inst).1).1
        else (gen_numbers_without_blank N ch inst).1) ∧
      p.numbers.length = N * N - 1 := by
  rw [mkPuzzle] at h
  split at h
  · simp at h
  · rename_i hN
    refine ⟨by omega, ?_⟩
    split at h
    · simp at h
    · rename_i ex unl hnorm
      split at h
      · simp at h
      · rename_i ch hch
        refine ⟨ex, unl, ch, ?_⟩
        split at h
        rename_i nums inst₁ hnums
        split at h
        · simp at h
        · rename_i hops vops flat g₁ hgen
          split at h
          · simp at h
          · rename_i expd hexp
            simp only [Prod.mk.injEq, Except.ok.injEq] at h
            obtain ⟨hp, hi, hg⟩ := h
            refine ⟨hops, vops, flat, expd, hnorm, hch, by rw [hgen, hg], ?_,
              ?_, ?_, ?_, ?_, ?_, ?_, ?_⟩
            · rw [hnums]
              exact hexp
            · rw [← hp]
            · rw [← hp]
            · rw [← hp]
            · rw [← hp]
            · rw [← hp]
            · rw [← hp, hnums]
              cases sh <;> simp
            · rw [← hp]
              have hlen : nums.length = N * N - 1 := by
                have := sampleRep_length ch (0 : Int) (N * N - 1) inst
                rw [show sampleRep ch 0 (N * N - 1) inst
                    = gen_numbers_without_blank N ch inst from rfl, hnums] at this
                exact this
              cases sh
              · simpa using hlen
              · simp only [Bool.true_eq, if_true]
                show (shuffle inst₁ nums).1.length = N * N - 1
                rw [shuffle_length]
                exact hlen

theorem col_ops_length (N : Nat) (hN : 2 ≤ N) (vops : List (List Op)) (c : Nat) :
    (col_ops N vops c).length = if c < N - 1 then N - 1 else N - 2 := by
  rw [col_ops]
  by_cases h1 : c < N - 1
  · rw [if_pos h1, if_pos h1, if_pos (show c ≤ N - 2 by omega)]
    simp only [List.length_append, List.length_map, List.length_range,
      List.length_cons, List.length_nil]
    omega
  · rw [if_neg h1, if_neg h1]
    simp only [List.length_append, List.length_map, List.length_range,
      List.length_nil]
    omega

/-- C5: every Puzzle constructed from a valid OperatorSpec, NumberDomain and
`N ≥ 2` has `2*N*(N-1) - 2` operators, `N*N - 1` numbers, row-operator
slices of length `N-1` for `r < N-1` and `N-2` for the last row, and the
symmetric lengths for its column-operator slices. -/
theorem C5_constructed_shape (N : Nat) (instRng : Rng) (sh : Bool)
    (spec : Option (List OpSpecItem)) (choices : Option (List Int)) (g : Rng)
    (p : Puzzle) (i g' : Rng) (hN : 2 ≤ N)
    (h : mkPuzzle N instRng sh spec choices g = (.ok p, i, g')) :
    p.operators.length = 2 * N * (N - 1) - 2 ∧
    p.numbers.length = N * N - 1 ∧
    (∀ r, r < N - 1 → (row_ops p.hops_per_row r).length = N - 1) ∧
    (row_ops p.hops_per_row (N - 1)).length = N - 2 ∧
    (∀ c, c < N - 1 → (col_ops N p.vops_per_level c).length = N - 1) ∧
    (col_ops N p.vops_per_level (N - 1)).length = N - 2 := by
  obtain ⟨hN2, ex, unl, ch, hops, vops, flat, expd, hnorm, hch, hgen, hexp,
    hpN, hhops, hvops, hflat, hexpd, hnums, hlen⟩ := mkPuzzle_ok h
  have hpos := normalize_op_spec_nonneg hnorm
  obtain ⟨hh1, hv1, hhlen, hhlast, hflen⟩ := gen_operators_ok hN2 hpos hgen
  refine ⟨by rw [hflat, hflen], hlen, ?_, ?_, ?_, ?_⟩
  · intro r hr
    rw [hhops, row_ops]
    exact hhlen r hr
  · rw [hhops, row_ops]
    exact hhlast
  · intro c hc
    rw [col_ops_length N hN2, if_pos hc]
  · rw [col_ops_length N hN2, if_neg (by omega)]

/-- Data of the concrete accepted 2-by-2 all-twos Puzzle used by witnesses. -/
def puzzle2x2 : Puzzle :=
  ⟨2, [2, 2, 2], [[.add], []], [[.add]], [.add, .add], [4, 2, 4, 2]⟩

/-- Witness for C5 at a concrete construction. -/
theorem C5_witness :
    (mkPuzzle 2 (constRng 0) false (some [.one .add]) (some [2]) (constRng 0)).1
        = .ok puzzle2x2 ∧
    puzzle2x2.operators.length = 2 * 2 * (2 - 1) - 2 ∧
    puzzle2x2.numbers.length = 2 * 2 - 1 := by
  have h1 : (mkPuzzle 2 (constRng 0) false (some [.one .add]) (some [2]) (constRng 0)).1
      = .ok puzzle2x2 := by decide
  have htrip : mkPuzzle 2 (constRng 0) false (some [.one .add]) (some [2]) (constRng 0)
      = (.ok puzzle2x2,
        (mkPuzzle 2 (constRng 0) false (some [.one .add]) (some [2]) (constRng 0)).2.1,
        (mkPuzzle 2 (constRng 0) false (some [.one .add]) (some [2]) (constRng 0)).2.2) := by
    rw [← h1]
  have hc := C5_constructed_shape 2 (constRng 0) false (some [.one .add]) (some [2])
    (constRng 0) puzzle2x2 _ _ (by omega) htrip
  exact ⟨h1, hc.1, hc.2.1⟩

theorem gen_numbers_pair (N : Nat) (ch : List Int) (inst : Rng) :
    gen_numbers_without_blank N ch inst
      = ((sampleRep ch 0 (N * N - 1) inst).1,
         (⟨inst.pos + (N * N - 1), inst.f⟩ : Rng)) := by
  rw [gen_numbers_without_blank, ← sampleRep_rng ch 0 (N * N - 1) inst]

theorem gen_operators_exact_overflow {N : Nat} {ex : List (Op × Int)} {unl : List Op}
    (g : Rng) (hN : 2 ≤ N)
    (hover : ((2 * N * (N - 1) - 2 : Nat) : Int) < (ex.map (fun p => p.2)).sum) :
    gen_operators N ex unl g =
      (.error (.valueError "Sum of exact operator counts exceeds required total."), g) := by
  rw [gen_operators, if_neg (by omega), if_neg (by have := total_pos hN; omega)]
  simp only []
  rw [if_pos hover]

theorem gen_operators_missing_unlimited {N : Nat} {ex : List (Op × Int)} {unl : List Op}
    (g : Rng) (hN : 2 ≤ N)
    (hnover : ¬ ((2 * N * (N - 1) - 2 : Nat) : Int) < (ex.map (fun p => p.2)).sum)
    (hrem : ((2 * N * (N - 1) - 2 : Nat) : Int) - (ex.map (fun p => p.2)).sum > 0)
    (hunl : unl = []) :
    gen_operators N ex unl g =
      (.error (.valueError "operators missing and no unlimited operators to fill them."), g) := by
  rw [gen_operators, if_neg (by omega), if_neg (by have := total_pos hN; omega)]
  simp only []
  rw [if_neg hnover, if_pos ⟨hrem, hunl⟩]

/-- C6 counterexample: for `N = 2` and the invalid spec `[('+', 5)]` (exact
counts sum 5 above the mesh size 2), construction does raise the
ConfigurationError — but only after the `N*N-1 = 3` number draws were taken
from the per-instance rng (its position moves from 0 to 3), so the error is
not raised before all random sampling as the claim states. -/
theorem C6_counterexample :
    (mkPuzzle 2 (constRng 0) true (some [.two .add (some 5)]) none (constRng 0)).1
      = .error (.valueError "Sum of exact operator counts exceeds required total.") ∧
    (constRng 0).pos = 0 ∧
    (mkPuzzle 2 (constRng 0) true (some [.two .add (some 5)]) none (constRng 0)).2.1.pos
      = 3 := by
  exact ⟨by decide, rfl, by decide⟩

/-- C6 amended: an invalid OperatorSpec raises ValueError at construction;
spec-shape errors (negative counts, operator both exact and unlimited,
empty spec) are raised before any random sampling, while the two
mesh-capacity errors — exact counts summing above `2*N*(N-1) - 2`, and an
unfilled remainder with no unlimited operator — are raised after the
`N*N-1` number draws from the per-instance rng but before any operator
sampling (the module-level rng is not consumed). -/
theorem C6_amended_error_timing (N : Nat) (inst : Rng) (sh : Bool)
    (spec : List OpSpecItem) (choices : Option (List Int)) (g : Rng) (hN : 2 ≤ N) :
    (∀ e, normalize_op_spec spec = .error e →
      mkPuzzle N inst sh (some spec) choices g = (.error e, inst, g)) ∧
    (∀ ex unl ch, normalize_op_spec spec = .ok (ex, unl) →
      normalize_number_choices choices = .ok ch →
      ((2 * N * (N - 1) - 2 : Nat) : Int) < (ex.map (fun p => p.2)).sum →
      mkPuzzle N inst sh (some spec) choices g =
        (.error (.valueError "Sum of exact operator counts exceeds required total."),
         (⟨inst.pos + (N * N - 1), inst.f⟩ : Rng), g)) ∧
    (∀ ex unl ch, normalize_op_spec spec = .ok (ex, unl) →
      normalize_number_choices choices = .ok ch →
      ¬ ((2 * N * (N - 1) - 2 : Nat) : Int) < (ex.map (fun p => p.2)).sum →
      ((2 * N * (N - 1) - 2 : Nat) : Int) - (ex.map (fun p => p.2)).sum > 0 →
      unl = [] →
      mkPuzzle N inst sh (some spec) choices g =
        (.error (.valueError "operators missing and no unlimited operators to fill them."),
         (⟨inst.pos + (N * N - 1), inst.f⟩ : Rng), g)) := by
  refine ⟨?_, ?_, ?_⟩
  · intro e he
    rw [mkPuzzle, if_neg (by omega)]
    simp only [Option.getD_some, he]
  · intro ex unl ch hnorm hch hover
    rw [mkPuzzle, if_neg (by omega)]
    simp only [Option.getD_some, hnorm, hch, gen_numbers_pair,
      gen_operators_exact_overflow g hN hover]
  · intro ex unl ch hnorm hch hnover hrem hunl
    rw [mkPuzzle, if_neg (by omega)]
    simp only [Option.getD_some, hnorm, hch, gen_numbers_pair,
      gen_operators_missing_unlimited g hN hnover hrem hunl]

/-- Witness for C6 amended at the concrete invalid spec `[('+', 5)]`. -/
theorem C6_witness :
    mkPuzzle 2 (constRng 0) true (some [.two .add (some 5)]) none (constRng 0) =
      (.error (.valueError "Sum of exact operator counts exceeds required total."),
       (⟨(constRng 0).pos + (2 * 2 - 1), (constRng 0).f⟩ : Rng), constRng 0) :=
  (C6_amended_error_timing 2 (constRng 0) true [.two .add (some 5)] none (constRng 0)
    (by omega)).2.1 [(.add, 5)] [] [2, 3, 4, 5, 6, 7, 8, 9]
    (by decide) (by decide) (by decide)

/-- C2 (code bug): two Puzzles constructed back to back from the same
seeded per-instance stream (same seed) and the same OperatorSpec
`[('+',), ('-',)]`, with post-shuffle disabled, are NOT structurally equal:
`_gen_operators` draws its unlimited fills (`random.choice`) and the pool
shuffle (`random.shuffle`) from the module-level generator, whose state
advances between the two constructions, so the operator meshes (and hence
the expected targets) differ.  The claim — and the repository's own test
`test_is_equal_to_same_seed_same_spec` — require `is_equal_to` to be true
here. -/
theorem C2_same_seed_same_spec_not_equal :
    (match (mkPuzzle 2 (constRng 0) false (some [.one .add, .one .sub]) none
        twoPhaseStream).1,
      (mkPuzzle 2 (constRng 0) false (some [.one .add, .one .sub]) none
        (mkPuzzle 2 (constRng 0) false (some [.one .add, .one .sub]) none
          twoPhaseStream).2.2).1 with
    | .ok p1, .ok p2 => p1.is_equal_to p2
    | _, _ => true) = false := by
  decide

/-! ### Error provenance of construction (for C1) -/

theorem normalizeLoop_err :
    ∀ (spec : List OpSpecItem) (ex : List (Op × Int)) (unl : List Op) (e : PyErr),
    normalizeLoop spec ex unl = .error e →
    e = .valueError "Invalid count: must be int >= 0 or null." := by
  intro spec
  induction spec with
  | nil => intro ex unl e h; simp [normalizeLoop] at h
  | cons item rest ih =>
    intro ex unl e h
    match item with
    | .one op => exact ih _ _ _ h
    | .two op none => exact ih _ _ _ h
    | .two op (some c) =>
      rw [normalizeLoop] at h
      split at h
      · simp only [Except.error.injEq] at h
        exact h.symm
      · exact ih _ _ _ h

theorem normalize_op_spec_err {spec : List OpSpecItem} {e : PyErr}
    (h : normalize_op_spec spec = .error e) :
    e = .valueError "operators_spec cannot be empty." ∨
    e = .valueError "Invalid count: must be int >= 0 or null." ∨
    e = .valueError "operator cannot be both exact and unlimited." ∨
    e = .valueError "At least one operator must be defined (exact or unlimited)." := by
  rw [normalize_op_spec] at h
  split at h
  · simp only [Except.error.injEq] at h
    exact Or.inl h.symm
  · split at h
    · rename_i e' hloop
      simp only [Except.error.injEq] at h
      exact Or.inr (Or.inl (h ▸ normalizeLoop_err spec [] [] e' hloop))
    · split at h
      · simp only [Except.error.injEq] at h
        exact Or.inr (Or.inr (Or.inl h.symm))
      · split at h
        · simp only [Except.error.injEq] at h
          exact Or.inr (Or.inr (Or.inr h.symm))
        · simp at h

theorem normalize_number_choices_err {choices : Option (List Int)} {e : PyErr}
    (h : normalize_number_choices choices = .error e) :
    e = .valueError "numbers_choices must be a non-empty list or None." ∨
    e = .valueError "numbers_choices contains a value < 2" := by
  match choices with
  | none => simp [normalize_number_choices] at h
  | some l =>
    rw [normalize_number_choices] at h
    split at h
    · simp only [Except.error.injEq] at h
      exact Or.inl h.symm
    · split at h
      · simp only [Except.error.injEq] at h
        exact Or.inr h.symm
      · simp at h

theorem normalize_number_choices_ok {choices : Option (List Int)} {ch : List Int}
    (h : normalize_number_choices choices = .ok ch) :
    ch ≠ [] ∧ ∀ v ∈ ch, 2 ≤ v := by
  match choices with
  | none =>
    simp only [normalize_number_choices, Except.ok.injEq] at h
    subst h
    refine ⟨by decide, by decide⟩
  | some l =>
    rw [normalize_number_choices] at h
    split at h
    · simp at h
    · rename_i hne
      split at h
      · simp at h
      · rename_i hany
        simp only [Except.ok.injEq] at h
        subst h
        refine ⟨hne, ?_⟩
        intro v hv
        by_contra hlt
        exact hany (List.any_eq_true.mpr ⟨v, hv, by simp; omega⟩)

theorem gen_operators_err {N : Nat} {ex : List (Op × Int)} {unl : List Op}
    {g g' : Rng} {e : PyErr}
    (h : gen_operators N ex unl g = (.error e, g')) :
    e = .valueError "Sum of exact operator counts exceeds required total." ∨
    e = .valueError "operators missing and no unlimited operators to fill them." := by
  rw [gen_operators] at h
  split at h
  · simp at h
  · simp only [] at h
    split at h
    · simp at h
    · split at h
      · simp only [Prod.mk.injEq, Except.error.injEq] at h
        exact Or.inl h.1.symm
      · split at h
        · simp only [Prod.mk.injEq, Except.error.injEq] at h
          exact Or.inr h.1.symm
        · simp at h

theorem mapE_error {f : α → Except PyErr β} :
    ∀ {l : List α} {e : PyErr}, mapE f l = .error e → ∃ a ∈ l, f a = .error e := by
  intro l
  induction l with
  | nil => intro e h; simp [mapE] at h
  | cons a rest ih =>
    intro e h
    rw [mapE] at h
    split at h
    · rename_i e' hfa
      simp only [Except.error.injEq] at h
      exact ⟨a, by simp, h ▸ hfa⟩
    · split at h
      · rename_i e' hrest
        simp only [Except.error.injEq] at h
        obtain ⟨b, hb, hfb⟩ := ih hrest
        exact ⟨b, by simp [hb], h ▸ hfb⟩
      · simp at h

theorem mem_take_drop {b : List Int} {x y : Nat} : ∀ v ∈ (b.drop x).take y, v ∈ b :=
  fun _ hv => List.mem_of_mem_drop (List.mem_of_mem_take hv)

theorem expected_line_err_generic (vals : List Int) (ops : List Op) (e : PyErr)
    (em mm dm : String) (hnz : ∀ v ∈ vals, v ≠ 0)
    (h : (if vals.length = 0 then (.error (.valueError em) : Except PyErr Rat)
      else if ops.length ≠ vals.length - 1 then .error (.valueError mm)
      else
        match eval_line_with_precedence vals ops with
        | .error e => .error e
        | .ok none => .error (.valueError dm)
        | .ok (some res) => .ok res) = .error e) :
    e = .valueError em ∨ e = .valueError mm := by
  split at h
  · simp only [Except.error.injEq] at h
    exact Or.inl h.symm
  · rename_i hlen0
    split at h
    · simp only [Except.error.injEq] at h
      exact Or.inr h.symm
    · rename_i hlen1
      exfalso
      have hg : eval_line_with_precedence vals ops
          = .ok (evalLineCore vals ops) := by
        rw [eval_line_with_precedence, if_pos ⟨by omega, by omega⟩]
      rw [hg] at h
      have hne : vals ≠ [] := by
        intro hc
        rw [hc] at hlen0
        simp at hlen0
      have hsome := evalLineCore_isSome vals ops hne hnz
      split at h
      · rename_i e' heq
        simp at heq
      · rename_i hcore
        simp only [Except.ok.injEq] at hcore
        rw [hcore] at hsome
        simp at hsome
      · simp at h

theorem expected_row_err {N : Nat} {b : List Int} {hops : List (List Op)} {r : Nat}
    {e : PyErr} (hnz : ∀ v ∈ b, v ≠ 0)
    (h : expected_row N b hops r = .error e) :
    e = .valueError "Empty row; N must be >= 2." ∨
    e = .valueError "Row/ops mismatch while computing expected." := by
  rw [expected_row] at h
  by_cases hr : r < N - 1
  · rw [if_pos hr] at h
    exact expected_line_err_generic _ _ _ _ _ _
      (fun v hv => hnz v (mem_take_drop v hv)) h
  · rw [if_neg hr] at h
    exact expected_line_err_generic _ _ _ _ _ _
      (fun v hv => hnz v (mem_take_drop v hv)) h

theorem map_getD_mem {b : List Int} {m : Nat} {f : Nat → Nat}
    (hf : ∀ r, r < m → f r < b.length) :
    ∀ v ∈ (List.range m).map (fun r => b.getD (f r) 0), v ∈ b := by
  intro v hv
  obtain ⟨r, hr, rfl⟩ := List.mem_map.mp hv
  rw [List.mem_range] at hr
  rw [List.getD_eq_getElem _ _ (hf r hr)]
  exact List.getElem_mem _

theorem expected_col_err {N : Nat} {b : List Int} {vops : List (List Op)} {c : Nat}
    {e : PyErr} (hN : 2 ≤ N) (hb : b.length = N * N - 1) (hc : c < N)
    (hnz : ∀ v ∈ b, v ≠ 0)
    (h : expected_col N b vops c = .error e) :
    e = .valueError "Empty column; N must be >= 2." ∨
    e = .valueError "Column/ops mismatch while computing expected." := by
  have hNN : (N - 1) * N + N = N * N := by
    obtain ⟨m, rfl⟩ : ∃ m, N = m + 1 := ⟨N - 1, by omega⟩
    simp only [Nat.add_sub_cancel]
    ring
  rw [expected_col] at h
  by_cases h1 : c < N - 1
  · rw [if_pos h1] at h
    refine expected_line_err_generic _ _ _ _ _ _
      (fun v hv => hnz v (map_getD_mem ?_ v hv)) h
    intro r hr
    have : r * N ≤ (N - 1) * N := Nat.mul_le_mul_right N (by omega)
    omega
  · rw [if_neg h1] at h
    refine expected_line_err_generic _ _ _ _ _ _
      (fun v hv => hnz v (map_getD_mem ?_ v hv)) h
    intro r hr
    have : r * N ≤ (N - 2) * N := Nat.mul_le_mul_right N (by omega)
    have h2N : (N - 2) * N + N = (N - 1) * N := by
      obtain ⟨m, rfl⟩ : ∃ m, N = m + 2 := ⟨N - 2, by omega⟩
      simp only [Nat.add_sub_cancel, show m + 2 - 1 = m + 1 by omega]
      ring
    omega

theorem compute_expected_err {N : Nat} {b : List Int} {hops vops : List (List Op)}
    {e : PyErr} (hN : 2 ≤ N) (hb : b.length = N * N - 1) (hnz : ∀ v ∈ b, v ≠ 0)
    (h : compute_expected N b hops vops = .error e) :
    e = .valueError "Empty row; N must be >= 2." ∨
    e = .valueError "Row/ops mismatch while computing expected." ∨
    e = .valueError "Empty column; N must be >= 2." ∨
    e = .valueError "Column/ops mismatch while computing expected." := by
  rw [compute_expected] at h
  split at h
  · rename_i hrow
    simp only [Except.error.injEq] at h
    subst h
    obtain ⟨r, _, hr⟩ := mapE_error hrow
    rcases expected_row_err hnz hr with h1 | h1
    · exact Or.inl h1
    · exact Or.inr (Or.inl h1)
  · split at h
    · rename_i rows _ hcol
      simp only [Except.error.injEq] at h
      subst h
      obtain ⟨c, hcmem, hcerr⟩ := mapE_error hcol
      rw [List.mem_range] at hcmem
      rcases expected_col_err hN hb hcmem hnz hcerr with h1 | h1
      · exact Or.inr (Or.inr (Or.inl h1))
      · exact Or.inr (Or.inr (Or.inr h1))
    · simp at h

/-- Construction can never fail with the division-by-zero errors: every
sampled number is at least 2, and every divisor in a target line is a raw
board value. -/
theorem mkPuzzle_no_divzero {N : Nat} {inst : Rng} {sh : Bool}
    {spec : Option (List OpSpecItem)} {choices : Option (List Int)} {g : Rng}
    {e : PyErr} {i g' : Rng}
    (h : mkPuzzle N inst sh spec choices g = (.error e, i, g')) :
    e ≠ .valueError "Division by zero while computing expected (row)." ∧
    e ≠ .valueError "Division by zero while computing expected (column)." := by
  rw [mkPuzzle] at h
  split at h
  · simp only [Prod.mk.injEq, Except.error.injEq] at h
    rw [← h.1]
    exact ⟨by decide, by decide⟩
  · rename_i hN
    split at h
    · rename_i e' hnorm
      simp only [Prod.mk.injEq, Except.error.injEq] at h
      rw [← h.1]
      rcases normalize_op_spec_err hnorm with h1 | h1 | h1 | h1 <;>
        (subst h1; exact ⟨by decide, by decide⟩)
    · rename_i ex unl hnorm
      split at h
      · rename_i e' hch
        simp only [Prod.mk.injEq, Except.error.injEq] at h
        rw [← h.1]
        rcases normalize_number_choices_err hch with h1 | h1 <;>
          (subst h1; exact ⟨by decide, by decide⟩)
      · rename_i ch hch
        split at h
        rename_i nums inst₁ hnums
        split at h
        · rename_i e' g₁ hgen
          simp only [Prod.mk.injEq, Except.error.injEq] at h
          rw [← h.1]
          rcases gen_operators_err hgen with h1 | h1 <;>
            (subst h1; exact ⟨by decide, by decide⟩)
        · rename_i hops vops flat g₁ hgen
          split at h
          · rename_i e' hexp
            simp only [Prod.mk.injEq, Except.error.injEq] at h
            rw [← h.1]
            have hchok := normalize_number_choices_ok hch
            have hnz : ∀ v ∈ nums, v ≠ 0 := by
              intro v hv
              have hvch : v ∈ ch := by
                have := sampleRep_mem ch 0 hchok.1 (N * N - 1) inst
                rw [show sampleRep ch 0 (N * N - 1) inst
                    = gen_numbers_without_blank N ch inst from rfl, hnums] at this
                exact this v hv
              have := hchok.2 v hvch
              omega
            have hblen : nums.length = N * N - 1 := by
              have := sampleRep_length ch (0 : Int) (N * N - 1) inst
              rw [show sampleRep ch 0 (N * N - 1) inst
                  = gen_numbers_without_blank N ch inst from rfl, hnums] at this
              exact this
            rcases compute_expected_err (by omega) hblen hnz hexp with h1 | h1 | h1 | h1 <;>
              (subst h1; exact ⟨by decide, by decide⟩)
          · rename_i expd hexp
            simp at h

/-- C1 counterexample: a construction-time `ValueError` raised inside the
generate loop (here from an invalid number domain, the same exception class
and raise path the division-by-zero branch would use) propagates out of
`find_one_puzzle` and `generate_and_store_puzzles` to the caller — the run
produces no summary at all, instead of discarding the candidate, consuming
one of the 3 available attempts and retrying as the claim states. -/
theorem C1_counterexample :
    generate_and_store_puzzles 1 2 [.one .add] (some [1]) true 3
      (fun _ => constRng 0) (constRng 0)
      = .error (.valueError "numbers_choices contains a value < 2") := by
  decide

/-- C1 amended: a division by zero can never occur while computing a row or
column target during construction (every sampled number is ≥ 2 and every
divisor is a raw board value), so the defensive `ValueError` branch for it
is unreachable; moreover the pipeline has no handler — a construction-time
exception propagates unchanged through `find_one_puzzle` and out of the
`generate_and_store_puzzles` loop.  Only a solver-based rejection
(`find_one_puzzle` returning `None`) is discarded, consuming exactly one
attempt before retrying with a fresh candidate. -/
theorem C1_amended_no_divzero_and_propagation :
    (∀ (N : Nat) (inst : Rng) (sh : Bool) (spec : Option (List OpSpecItem))
       (choices : Option (List Int)) (g : Rng) (e : PyErr) (i g' : Rng),
      mkPuzzle N inst sh spec choices g = (.error e, i, g') →
      e ≠ .valueError "Division by zero while computing expected (row)." ∧
      e ≠ .valueError "Division by zero while computing expected (column).") ∧
    (∀ (N : Nat) (inst : Rng) (spec : List OpSpecItem) (allowed : Option (List Int))
       (ru : Bool) (cap : Option Nat) (g : Rng) (e : PyErr) (i g' : Rng),
      mkPuzzle N inst true (some spec) allowed g = (.error e, i, g') →
      find_one_puzzle N inst spec allowed ru cap g = (.error e, i, g')) ∧
    (∀ (count N : Nat) (spec : List OpSpecItem) (allowed : Option (List Int))
       (ru : Bool) (instRngs : Nat → Rng) (fuel : Nat) (g : Rng)
       (saved : List BoardSpec) (attempts : Nat) (e : PyErr) (i g' : Rng),
      saved.length < count →
      find_one_puzzle N (instRngs attempts) spec allowed ru
        (if ru then some 2 else none) g = (.error e, i, g') →
      genLoop count N spec allowed ru instRngs (fuel + 1) g saved attempts
        = .error e) ∧
    (∀ (count N : Nat) (spec : List OpSpecItem) (allowed : Option (List Int))
       (ru : Bool) (instRngs : Nat → Rng) (fuel : Nat) (g : Rng)
       (saved : List BoardSpec) (attempts : Nat) (i g' : Rng),
      saved.length < count →
      find_one_puzzle N (instRngs attempts) spec allowed ru
        (if ru then some 2 else none) g = (.ok none, i, g') →
      genLoop count N spec allowed ru instRngs (fuel + 1) g saved attempts
        = genLoop count N spec allowed ru instRngs fuel g' saved (attempts + 1)) := by
  refine ⟨?_, ?_, ?_, ?_⟩
  · intro N inst sh spec choices g e i g' h
    exact mkPuzzle_no_divzero h
  · intro N inst spec allowed ru cap g e i g' h
    rw [find_one_puzzle]
    simp only [h]
  · intro count N spec allowed ru instRngs fuel g saved attempts e i g' hlt hfind
    rw [genLoop, if_pos hlt]
    simp only [hfind]
  · intro count N spec allowed ru instRngs fuel g saved attempts i g' hlt hfind
    rw [genLoop, if_pos hlt]
    simp only [hfind]

/-- Witness for C1 amended at a concrete construction failure. -/
theorem C1_witness :
    (find_one_puzzle 2 (constRng 0) [.one .add] (some [1]) true (some 2) (constRng 0)).1
      = .error (.valueError "numbers_choices contains a value < 2") ∧
    (PyErr.valueError "numbers_choices contains a value < 2")
      ≠ .valueError "Division by zero while computing expected (row)." := by
  have h1 : (mkPuzzle 2 (constRng 0) true (some [.one .add]) (some [1]) (constRng 0)).1
      = .error (.valueError "numbers_choices contains a value < 2") := by decide
  have htrip : mkPuzzle 2 (constRng 0) true (some [.one .add]) (some [1]) (constRng 0)
      = (.error (.valueError "numbers_choices contains a value < 2"),
         (mkPuzzle 2 (constRng 0) true (some [.one .add]) (some [1]) (constRng 0)).2.1,
         (mkPuzzle 2 (constRng 0) true (some [.one .add]) (some [1]) (constRng 0)).2.2) := by
    rw [← h1]
  refine ⟨?_, (C1_amended_no_divzero_and_propagation.1 2 (constRng 0) true
    (some [.one .add]) (some [1]) (constRng 0) _ _ _ htrip).1⟩
  have h2 := C1_amended_no_divzero_and_propagation.2.1 2 (constRng 0) [.one .add]
    (some [1]) true (some 2) (constRng 0) _ _ _ htrip
  rw [h2]

/-! ### Solver lemmas: the capped run is a prefix of the uncapped run -/

theorem place_cons (p : Puzzle) (cap : Option Nat) (foAll : List Nat) (idx : Nat)
    (rest : List Nat) (board : List (Option Int)) (pool : List Int)
    (sols : List (List Int)) :
    place p cap foAll (idx :: rest) board pool sols
      = ((candidates pool).foldl (placeStep p cap foAll idx rest board pool)
          (sols, false)).1 := rfl

theorem placeStep_absorb (p : Puzzle) (cap : Option Nat) (foAll : List Nat)
    (idx : Nat) (rest : List Nat) (board : List (Option Int)) (pool : List Int) :
    ∀ (cands : List Int) (s : List (List Int)),
    (cands.foldl (placeStep p cap foAll idx rest board pool) (s, true)) = (s, true) := by
  intro cands
  induction cands with
  | nil => intro s; rfl
  | cons val more ih => intro s; exact ih s

theorem placeStep_false (p : Puzzle) (cap : Option Nat) (foAll : List Nat) (idx : Nat)
    (rest : List Nat) (board : List (Option Int)) (pool : List Int)
    (s : List (List Int)) (val : Int) :
    placeStep p cap foAll idx rest board pool (s, false) val =
      (if placeFails p idx board val then (s, false)
       else (place p cap foAll rest (board.set idx (some val)) (pool.erase val) s,
         capHit cap
           (place p cap foAll rest (board.set idx (some val)) (pool.erase val) s).length)) := by
  rw [placeStep, placeFails]
  cases completes_row p.N idx with
  | none =>
    cases completes_col p.N idx with
    | none => simp
    | some c =>
      simp only [Bool.false_or]
      by_cases hc : p.col_is_valid (board.set idx (some val)) c <;> simp [hc]
  | some r =>
    by_cases hr : p.row_is_valid (board.set idx (some val)) r
    · simp only [hr, Bool.not_true, Bool.false_or]
      cases completes_col p.N idx with
      | none => simp
      | some c =>
        by_cases hc : p.col_is_valid (board.set idx (some val)) c <;> simp [hc]
    · simp [hr]

theorem place_none_extends (p : Puzzle) (foAll : List Nat) :
    ∀ (rest : List Nat) (board : List (Option Int)) (pool : List Int)
      (sols : List (List Int)),
    place p none foAll rest board pool sols
      = sols ++ place p none foAll rest board pool [] := by
  intro rest
  induction rest with
  | nil =>
    intro board pool sols
    simp [place]
  | cons idx rest' ih =>
    intro board pool sols
    rw [place_cons, place_cons]
    have inner : ∀ (cands : List Int) (s : List (List Int)),
        (cands.foldl (placeStep p none foAll idx rest' board pool) (s, false)).1
          = s ++ (cands.foldl (placeStep p none foAll idx rest' board pool)
              ([], false)).1 := by
      intro cands
      induction cands with
      | nil => intro s; simp
      | cons val more ihc =>
        intro s
        simp only [List.foldl_cons, placeStep_false]
        by_cases hf : placeFails p idx board val
        · rw [if_pos hf, if_pos hf]
          exact ihc s
        · rw [if_neg hf, if_neg hf]
          simp only [capHit]
          rw [ih _ _ s]
          rw [ihc (s ++ place p none foAll rest' (board.set idx (some val))
            (pool.erase val) []),
            ihc (place p none foAll rest' (board.set idx (some val))
              (pool.erase val) [])]
          rw [List.append_assoc]
    exact inner (candidates pool) sols

theorem place_nil (p : Puzzle) (cap : Option Nat) (foAll : List Nat)
    (board : List (Option Int)) (pool : List Int) (sols : List (List Int)) :
    place p cap foAll [] board pool sols
      = sols ++ [extract_solution foAll board] := rfl

theorem foldl_none_extends (p : Puzzle) (foAll : List Nat) (idx : Nat)
    (rest : List Nat) (board : List (Option Int)) (pool : List Int) :
    ∀ (cands : List Int) (s : List (List Int)),
    (cands.foldl (placeStep p none foAll idx rest board pool) (s, false)).1
      = s ++ (cands.foldl (placeStep p none foAll idx rest board pool) ([], false)).1 := by
  intro cands
  induction cands with
  | nil => intro s; simp
  | cons val more ihc =>
    intro s
    simp only [List.foldl_cons, placeStep_false]
    by_cases hf : placeFails p idx board val
    · rw [if_pos hf, if_pos hf]
      exact ihc s
    · rw [if_neg hf, if_neg hf]
      simp only [capHit]
      rw [place_none_extends p foAll rest _ _ s]
      rw [ihc (s ++ place p none foAll rest (board.set idx (some val))
          (pool.erase val) []),
        ihc (place p none foAll rest (board.set idx (some val)) (pool.erase val) [])]
      rw [List.append_assoc]

theorem place_take (p : Puzzle) (foAll : List Nat) (c : Nat) :
    ∀ (rest : List Nat) (board : List (Option Int)) (pool : List Int)
      (sols : List (List Int)), sols.length < c →
    place p (some c) foAll rest board pool sols
      = (place p none foAll rest board pool sols).take c := by
  intro rest
  induction rest with
  | nil =>
    intro board pool sols hlt
    rw [place_nil, place_nil]
    rw [List.take_of_length_le (by simp only [List.length_append,
      List.length_cons, List.length_nil]; omega)]
  | cons idx rest' ih =>
    intro board pool sols hlt
    rw [place_cons, place_cons]
    have inner : ∀ (cands : List Int) (s : List (List Int)), s.length < c →
        (cands.foldl (placeStep p (some c) foAll idx rest' board pool) (s, false)).1
          = ((cands.foldl (placeStep p none foAll idx rest' board pool)
              (s, false)).1).take c := by
      intro cands
      induction cands with
      | nil =>
        intro s hs
        simp only [List.foldl_nil]
        rw [List.take_of_length_le (le_of_lt hs)]
      | cons val more ihc =>
        intro s hs
        simp only [List.foldl_cons, placeStep_false]
        by_cases hf : placeFails p idx board val
        · rw [if_pos hf, if_pos hf]
          exact ihc s hs
        · rw [if_neg hf, if_neg hf]
          have hCt := ih (board.set idx (some val)) (pool.erase val) s hs
          rw [hCt]
          simp only [capHit]
          set sU := place p none foAll rest' (board.set idx (some val))
            (pool.erase val) s with hsU
          have hmin := List.length_take c sU
          by_cases hcap : c ≤ (sU.take c).length
          · rw [decide_eq_true hcap, placeStep_absorb]
            have hUlen : c ≤ sU.length := by omega
            rw [foldl_none_extends]
            rw [List.take_append_of_le_length hUlen]
          · rw [decide_eq_false hcap]
            have hUeq : sU.take c = sU := by
              apply List.take_of_length_le
              omega
            rw [hUeq]
            refine ihc sU ?_
            have : sU.length = (sU.take c).length := by rw [hUeq]
            omega
    exact inner (candidates pool) sols hlt

/-- Solving with a cap returns exactly the first `c` solutions of the
uncapped run. -/
theorem solve_all_capped_take (p : Puzzle) (c : Nat) (hc : 0 < c) :
    p.solve_all (some c) = (p.solve_all none).take c := by
  rw [Puzzle.solve_all, Puzzle.solve_all]
  exact place_take p (fill_order p.N) c (fill_order p.N) _ _ [] (by simpa using hc)

/-- C3: if `find_one_puzzle` with `require_unique=true` returns a Puzzle,
then solving that Puzzle with no solution cap yields exactly one solution;
the function runs the solver capped at 2 and accepts only a puzzle with
exactly one solution under uniqueness, or at least one otherwise. -/
theorem C3_accepted_implies_unique :
    (∀ (N : Nat) (inst : Rng) (spec : List OpSpecItem) (allowed : Option (List Int))
       (g : Rng) (p : Puzzle) (i g' : Rng),
      find_one_puzzle N inst spec allowed true (some 2) g = (.ok (some p), i, g') →
      (p.solve_all none).length = 1 ∧ (p.solve_all (some 2)).length = 1) ∧
    (∀ (N : Nat) (inst : Rng) (spec : List OpSpecItem) (allowed : Option (List Int))
       (cap : Option Nat) (g : Rng) (p : Puzzle) (i g' : Rng),
      find_one_puzzle N inst spec allowed false cap g = (.ok (some p), i, g') →
      1 ≤ (p.solve_all cap).length) := by
  constructor
  · intro N inst spec allowed g p i g' h
    rw [find_one_puzzle] at h
    split at h
    · simp at h
    · rename_i p₀ i₀ g₀ hmk
      simp only [if_true] at h
      split at h
      · rename_i hlen
        simp only [Prod.mk.injEq, Except.ok.injEq, Option.some.injEq] at h
        obtain ⟨rfl, -, -⟩ := h
        refine ⟨?_, hlen⟩
        have ht := solve_all_capped_take p₀ 2 (by omega)
        rw [ht, List.length_take] at hlen
        omega
      · simp at h
  · intro N inst spec allowed cap g p i g' h
    rw [find_one_puzzle] at h
    split at h
    · simp at h
    · rename_i p₀ i₀ g₀ hmk
      simp only [Bool.false_eq_true, if_false] at h
      split at h
      · rename_i hlen
        simp only [Prod.mk.injEq, Except.ok.injEq, Option.some.injEq] at h
        obtain ⟨rfl, -, -⟩ := h
        exact hlen
      · simp at h

/-- Witness for C3 at a concrete accepted construction. -/
theorem C3_witness :
    (find_one_puzzle 2 (constRng 0) [.one .add] (some [2]) true (some 2) (constRng 0)).1
      = .ok (some puzzle2x2) ∧
    (puzzle2x2.solve_all none).length = 1 := by
  have h1 : (find_one_puzzle 2 (constRng 0) [.one .add] (some [2]) true (some 2)
      (constRng 0)).1 = .ok (some puzzle2x2) := by decide
  have htrip : find_one_puzzle 2 (constRng 0) [.one .add] (some [2]) true (some 2)
      (constRng 0)
      = (.ok (some puzzle2x2),
        (find_one_puzzle 2 (constRng 0) [.one .add] (some [2]) true (some 2)
          (constRng 0)).2.1,
        (find_one_puzzle 2 (constRng 0) [.one .add] (some [2]) true (some 2)
          (constRng 0)).2.2) := by
    rw [← h1]
  exact ⟨h1, (C3_accepted_implies_unique.1 2 (constRng 0) [.one .add] (some [2])
    (constRng 0) puzzle2x2 _ _ htrip).1⟩

/-! ### Solver solution invariants -/

theorem mem_insertSorted {le : α → α → Bool} {a x : α} :
    ∀ {l : List α}, x ∈ insertSorted le a l → x = a ∨ x ∈ l := by
  intro l
  induction l with
  | nil => intro h; simpa [insertSorted] using h
  | cons b t ih =>
    intro h
    rw [insertSorted] at h
    split at h
    · rcases List.mem_cons.mp h with rfl | h'
      · exact Or.inl rfl
      · exact Or.inr h'
    · rcases List.mem_cons.mp h with rfl | h'
      · exact Or.inr (by simp)
      · rcases ih h' with rfl | h''
        · exact Or.inl rfl
        · exact Or.inr (by simp [h''])

theorem mem_sortByKey {le : α → α → Bool} {x : α} :
    ∀ {l : List α}, x ∈ sortByKey le l → x ∈ l := by
  intro l
  induction l with
  | nil => intro h; simpa [sortByKey] using h
  | cons a t ih =>
    intro h
    rw [sortByKey] at h
    rcases mem_insertSorted h with rfl | h'
    · simp
    · simp [ih h']

theorem mem_candidates {pool : List Int} {val : Int} (h : val ∈ candidates pool) :
    val ∈ pool :=
  List.mem_dedup.mp (mem_sortByKey h)

theorem getD_set_ne {board : List (Option Int)} {k i : Nat} {v d : Option Int}
    (h : i ≠ k) : (board.set k v).getD i d = board.getD i d := by
  by_cases hi : i < board.length
  · rw [List.getD_eq_getElem _ _ (by simpa using hi),
      List.getD_eq_getElem _ _ hi]
    exact List.getElem_set_ne (Ne.symm h) _
  · rw [List.getD_eq_default _ _ (by simpa using hi),
      List.getD_eq_default _ _ (by omega)]

theorem getD_set_self {board : List (Option Int)} {k : Nat} {v d : Option Int}
    (h : k < board.length) : (board.set k v).getD k d = v := by
  rw [List.getD_eq_getElem _ _ (by simpa using h)]
  exact List.getElem_set_self _

theorem range_filter_ne (n : Nat) :
    (List.range (n + 1)).filter (fun i => decide (i ≠ n)) = List.range n := by
  rw [List.range_succ, List.filter_append]
  have h1 : (List.range n).filter (fun i => decide (i ≠ n)) = List.range n := by
    apply List.filter_eq_self.mpr
    intro a ha
    simp only [decide_eq_true_eq]
    exact Nat.ne_of_lt (List.mem_range.mp ha)
  have h2 : [n].filter (fun i => decide (i ≠ n)) = [] := by simp
  rw [h1, h2, List.append_nil]

theorem fill_order_eq_range (N : Nat) (h : 1 ≤ N) :
    fill_order N = List.range (N * N - 1) := by
  have hpos : 0 < N * N := Nat.mul_pos h h
  have key : ∀ m, m = N * N →
      (List.range m).filter (fun i => decide (i ≠ N * N - 1))
        = List.range (N * N - 1) := by
    intro m hm
    rw [show m = (N * N - 1) + 1 from by omega]
    exact range_filter_ne (N * N - 1)
  rw [fill_order]
  exact key (N * N) rfl

theorem arith_row_slice (N r : Nat) (hN : 2 ≤ N) (hr : r < N - 1) :
    r * N + N ≤ N * N - 1 := by
  obtain ⟨m, rfl⟩ : ∃ m, N = m + 2 := ⟨N - 2, by omega⟩
  have h1 : r * (m + 2) ≤ m * (m + 2) := Nat.mul_le_mul_right _ (by omega)
  have h2 : (m + 2) * (m + 2) = m * (m + 2) + 2 * (m + 2) := by ring
  omega

theorem arith_row_last (N : Nat) (hN : 2 ≤ N) :
    (N - 1) * N + (N - 1) ≤ N * N - 1 := by
  obtain ⟨m, rfl⟩ : ∃ m, N = m + 2 := ⟨N - 2, by omega⟩
  have h1 : (m + 2 - 1) * (m + 2) = m * (m + 2) + (m + 2) := by
    rw [show m + 2 - 1 = m + 1 from by omega]; ring
  have h2 : (m + 2) * (m + 2) = m * (m + 2) + 2 * (m + 2) := by ring
  omega

theorem arith_col_mid (N i c : Nat) (hN : 2 ≤ N) (hi : i < N) (hc : c < N - 1) :
    i * N + c < N * N - 1 := by
  obtain ⟨m, rfl⟩ : ∃ m, N = m + 2 := ⟨N - 2, by omega⟩
  have h1 : i * (m + 2) ≤ (m + 1) * (m + 2) := Nat.mul_le_mul_right _ (by omega)
  have h2 : (m + 1) * (m + 2) = m * (m + 2) + (m + 2) := by ring
  have h3 : (m + 2) * (m + 2) = m * (m + 2) + 2 * (m + 2) := by ring
  omega

theorem arith_col_last (N i : Nat) (hN : 2 ≤ N) (hi : i < N - 1) :
    i * N + (N - 1) < N * N - 1 := by
  obtain ⟨m, rfl⟩ : ∃ m, N = m + 2 := ⟨N - 2, by omega⟩
  have h1 : i * (m + 2) ≤ m * (m + 2) := Nat.mul_le_mul_right _ (by omega)
  have h2 : (m + 2) * (m + 2) = m * (m + 2) + 2 * (m + 2) := by ring
  omega

theorem rowDoneIdx_lt (N r : Nat) (hN : 2 ≤ N) (hr : r < N) :
    rowDoneIdx N r < N * N - 1 := by
  obtain ⟨m, rfl⟩ : ∃ m, N = m + 2 := ⟨N - 2, by omega⟩
  rw [rowDoneIdx]
  have hsq : (m + 2) * (m + 2) = m * (m + 2) + 2 * (m + 2) := by ring
  by_cases hb : r < m + 2 - 1
  · rw [if_pos hb]
    have h1 : r * (m + 2) ≤ m * (m + 2) := Nat.mul_le_mul_right _ (by omega)
    omega
  · rw [if_neg hb]
    have h2 : (m + 2 - 1) * (m + 2) = m * (m + 2) + (m + 2) := by
      rw [show m + 2 - 1 = m + 1 from by omega]; ring
    omega

theorem colDoneIdx_lt (N c : Nat) (hN : 2 ≤ N) (hc : c < N) :
    colDoneIdx N c < N * N - 1 := by
  obtain ⟨m, rfl⟩ : ∃ m, N = m + 2 := ⟨N - 2, by omega⟩
  rw [colDoneIdx]
  have hsq : (m + 2) * (m + 2) = m * (m + 2) + 2 * (m + 2) := by ring
  by_cases hb : c < m + 2 - 1
  · rw [if_pos hb]
    have h2 : (m + 2 - 1) * (m + 2) = m * (m + 2) + (m + 2) := by
      rw [show m + 2 - 1 = m + 1 from by omega]; ring
    omega
  · rw [if_neg hb]
    have h2 : (m + 2 - 2) * (m + 2) = m * (m + 2) := by
      rw [show m + 2 - 2 = m from by omega]
    omega

theorem completes_row_iff (N k r : Nat) (hN : 2 ≤ N) :
    completes_row N k = some r ↔ (r < N ∧ k = rowDoneIdx N r) := by
  obtain ⟨m, rfl⟩ : ∃ m, N = m + 2 := ⟨N - 2, by omega⟩
  have hdm := Nat.div_add_mod' k (m + 2)
  rw [completes_row, rowDoneIdx]
  rw [show m + 2 - 1 = m + 1 from by omega, show m + 2 - 2 = m from by omega]
  constructor
  · intro h
    split at h
    · rename_i hcond
      obtain ⟨hlt, hmod⟩ := hcond
      obtain rfl : k / (m + 2) = r := Option.some.inj h
      rw [if_pos hlt]
      exact ⟨by omega, by omega⟩
    · split at h
      · rename_i hcond
        obtain ⟨hdiv, hmod⟩ := hcond
        obtain rfl : k / (m + 2) = r := Option.some.inj h
        rw [if_neg (by omega : ¬ k / (m + 2) < m + 1)]
        rw [hdiv] at hdm
        exact ⟨by omega, by omega⟩
      · exact absurd h (by simp)
  · rintro ⟨hr, hkey⟩
    by_cases hb : r < m + 1
    · rw [if_pos hb] at hkey
      subst hkey
      have hkey2 : r * (m + 2) + (m + 1) = (m + 2) * r + (m + 1) := by ring
      have hdiv : (r * (m + 2) + (m + 1)) / (m + 2) = r := by
        rw [hkey2, Nat.mul_add_div (by omega), Nat.div_eq_of_lt (by omega)]; omega
      have hmod : (r * (m + 2) + (m + 1)) % (m + 2) = m + 1 := by
        rw [hkey2, Nat.mul_add_mod]
        exact Nat.mod_eq_of_lt (by omega)
      rw [if_pos ⟨by rw [hdiv]; exact hb, hmod⟩, hdiv]
    · have hre : r = m + 1 := by omega
      subst hre
      rw [if_neg hb] at hkey
      subst hkey
      have hkey2 : (m + 1) * (m + 2) + m = (m + 2) * (m + 1) + m := by ring
      have hdiv : ((m + 1) * (m + 2) + m) / (m + 2) = m + 1 := by
        rw [hkey2, Nat.mul_add_div (by omega), Nat.div_eq_of_lt (by omega)]
      have hmod : ((m + 1) * (m + 2) + m) % (m + 2) = m := by
        rw [hkey2, Nat.mul_add_mod]
        exact Nat.mod_eq_of_lt (by omega)
      rw [if_neg (by rw [hdiv, hmod]; omega), if_pos ⟨hdiv, hmod⟩, hdiv]

theorem completes_col_iff (N k c : Nat) (hN : 2 ≤ N) :
    completes_col N k = some c ↔ (c < N ∧ k = colDoneIdx N c) := by
  obtain ⟨m, rfl⟩ : ∃ m, N = m + 2 := ⟨N - 2, by omega⟩
  have hdm := Nat.div_add_mod' k (m + 2)
  rw [completes_col, colDoneIdx]
  rw [show m + 2 - 1 = m + 1 from by omega, show m + 2 - 2 = m from by omega]
  constructor
  · intro h
    split at h
    · rename_i hcond
      obtain ⟨hlt, hdiv⟩ := hcond
      obtain rfl : k % (m + 2) = c := Option.some.inj h
      rw [if_pos hlt]
      rw [hdiv] at hdm
      exact ⟨by omega, by omega⟩
    · split at h
      · rename_i hcond
        obtain ⟨hmod, hdiv⟩ := hcond
        obtain rfl : k % (m + 2) = c := Option.some.inj h
        rw [if_neg (by omega : ¬ k % (m + 2) < m + 1)]
        rw [hdiv] at hdm
        exact ⟨by omega, by omega⟩
      · exact absurd h (by simp)
  · rintro ⟨hc, hkey⟩
    by_cases hb : c < m + 1
    · rw [if_pos hb] at hkey
      subst hkey
      have hkey2 : (m + 1) * (m + 2) + c = (m + 2) * (m + 1) + c := by ring
      have hdiv : ((m + 1) * (m + 2) + c) / (m + 2) = m + 1 := by
        rw [hkey2, Nat.mul_add_div (by omega), Nat.div_eq_of_lt (by omega)]
      have hmod : ((m + 1) * (m + 2) + c) % (m + 2) = c := by
        rw [hkey2, Nat.mul_add_mod]
        exact Nat.mod_eq_of_lt (by omega)
      rw [if_pos ⟨by rw [hmod]; exact hb, hdiv⟩, hmod]
    · have hce : c = m + 1 := by omega
      subst hce
      rw [if_neg hb] at hkey
      subst hkey
      have hkey2 : m * (m + 2) + (m + 1) = (m + 2) * m + (m + 1) := by ring
      have hdiv : (m * (m + 2) + (m + 1)) / (m + 2) = m := by
        rw [hkey2, Nat.mul_add_div (by omega), Nat.div_eq_of_lt (by omega)]; omega
      have hmod : (m * (m + 2) + (m + 1)) % (m + 2) = m + 1 := by
        rw [hkey2, Nat.mul_add_mod]
        exact Nat.mod_eq_of_lt (by omega)
      rw [if_neg (by rw [hdiv, hmod]; omega), if_pos ⟨hmod, hdiv⟩, hmod]

theorem drop_take_set_ne (board : List (Option Int)) (k s m : Nat) (v : Option Int)
    (h : s + m ≤ k) :
    ((board.set k v).drop s).take m = (board.drop s).take m := by
  apply List.ext_getElem
  · simp [List.length_take, List.length_drop]
  · intro n h₁ h₂
    have hn : n < m := by
      have := h₂
      simp [List.length_take, List.length_drop] at this
      omega
    rw [List.getElem_take, List.getElem_drop, List.getElem_take, List.getElem_drop]
    exact List.getElem_set_ne (by omega) _

theorem row_values_set_high (N : Nat) (board : List (Option Int)) (k r : Nat)
    (v : Option Int) (hN : 2 ≤ N) (hr : r < N) (hk : rowDoneIdx N r < k) :
    row_values N (board.set k v) r = row_values N board r := by
  rw [row_values, row_values, rowDoneIdx] at *
  by_cases hlt : r < N - 1
  · rw [if_pos hlt] at hk
    rw [if_pos hlt, if_pos hlt]
    rw [drop_take_set_ne _ _ _ _ _ (by omega)]
  · rw [if_neg hlt] at hk
    rw [if_neg hlt, if_neg hlt]
    have hre : r = N - 1 := by omega
    subst hre
    rw [drop_take_set_ne _ _ _ _ _ (by omega)]

theorem col_values_set_high (N : Nat) (board : List (Option Int)) (k c : Nat)
    (v : Option Int) (hN : 2 ≤ N) (hc : c < N) (hk : colDoneIdx N c < k) :
    col_values N (board.set k v) c = col_values N board c := by
  rw [col_values, col_values, colDoneIdx] at *
  apply List.map_congr_left
  intro i hi
  have hiN := List.mem_range.mp hi
  by_cases hb : c < N - 1
  · rw [if_pos hb] at hk
    rw [if_pos hb] at hiN
    have h1 : i * N ≤ (N - 1) * N := Nat.mul_le_mul_right _ (by omega)
    rw [getD_set_ne (show i * N + c ≠ k by omega)]
  · rw [if_neg hb] at hk
    rw [if_neg hb] at hiN
    have hce : c = N - 1 := by omega
    subst hce
    have h1 : i * N ≤ (N - 2) * N := Nat.mul_le_mul_right _ (by omega)
    rw [getD_set_ne (show i * N + (N - 1) ≠ k by omega)]

theorem row_valid_set_high (p : Puzzle) (board : List (Option Int)) (k r : Nat)
    (v : Option Int) (hN : 2 ≤ p.N) (hr : r < p.N) (hk : rowDoneIdx p.N r < k) :
    p.row_is_valid (board.set k v) r = p.row_is_valid board r := by
  rw [Puzzle.row_is_valid, Puzzle.row_is_valid,
    row_values_set_high p.N board k r v hN hr hk]

theorem col_valid_set_high (p : Puzzle) (board : List (Option Int)) (k c : Nat)
    (v : Option Int) (hN : 2 ≤ p.N) (hc : c < p.N) (hk : colDoneIdx p.N c < k) :
    p.col_is_valid (board.set k v) c = p.col_is_valid board c := by
  rw [Puzzle.col_is_valid, Puzzle.col_is_valid,
    col_values_set_high p.N board k c v hN hc hk]

theorem extract_range_succ (board : List (Option Int)) (k : Nat) :
    extract_solution (List.range (k + 1)) board
      = extract_solution (List.range k) board ++ [(board.getD k none).getD 0] := by
  rw [extract_solution, extract_solution, List.range_succ, List.map_append]
  rfl

theorem extract_set_ge (board : List (Option Int)) (k j : Nat) (v : Option Int)
    (h : k ≤ j) :
    extract_solution (List.range k) (board.set j v)
      = extract_solution (List.range k) board := by
  rw [extract_solution, extract_solution]
  apply List.map_congr_left
  intro i hi
  have := List.mem_range.mp hi
  rw [getD_set_ne (by omega)]

theorem sb_slice (X : List Int) (s m : Nat) (h : s + m ≤ X.length) :
    (((X.map some ++ [none]).drop s).take m).map (fun v : Option Int => v.getD 0)
      = (X.drop s).take m := by
  rw [List.drop_append_of_le_length (by simp; omega),
    List.take_append_of_le_length (by simp; omega),
    ← List.map_drop, ← List.map_take, List.map_map]
  simp [Function.comp_def, Option.getD_some]

theorem board_slice (board : List (Option Int)) (s m : Nat)
    (h : s + m ≤ board.length) :
    ((board.drop s).take m).map (fun v => v.getD 0)
      = (List.range m).map (fun j => (board.getD (s + j) none).getD 0) := by
  apply List.ext_getElem
  · simp [List.length_take, List.length_drop]
    omega
  · intro n h₁ h₂
    have hn : n < m := by simpa using h₂
    rw [List.getElem_map, List.getElem_take, List.getElem_drop,
      List.getElem_map, List.getElem_range,
      List.getD_eq_getElem _ _ (by omega)]

theorem range_map_slice (f : Nat → Int) (s m M : Nat) (h : s + m ≤ M) :
    (((List.range M).map f).drop s).take m
      = (List.range m).map (fun j => f (s + j)) := by
  apply List.ext_getElem
  · simp [List.length_take, List.length_drop]
    omega
  · intro n h₁ h₂
    have hn : n < m := by simpa using h₂
    rw [List.getElem_take, List.getElem_drop, List.getElem_map,
      List.getElem_range, List.getElem_map, List.getElem_range]

theorem row_valid_extract (p : Puzzle) (board : List (Option Int)) (r : Nat)
    (hN : 2 ≤ p.N) (hb : board.length = p.N * p.N) (hr : r < p.N) :
    solution_row_valid p
      (extract_solution (List.range (p.N * p.N - 1)) board) r
      = p.row_is_valid board r := by
  have hkey : row_values p.N
      (solution_board (extract_solution (List.range (p.N * p.N - 1)) board)) r
      = row_values p.N board r := by
    rw [row_values, row_values, solution_board, extract_solution]
    by_cases hlt : r < p.N - 1
    · rw [if_pos hlt, if_pos hlt]
      rw [sb_slice _ _ _ (by
        simp [List.length_map, List.length_range]
        exact arith_row_slice p.N r hN hlt)]
      rw [board_slice _ _ _ (by
        have := arith_row_slice p.N r hN hlt; omega)]
      rw [range_map_slice _ _ _ _ (arith_row_slice p.N r hN hlt)]
    · rw [if_neg hlt, if_neg hlt]
      have hre : r = p.N - 1 := by omega
      subst hre
      rw [sb_slice _ _ _ (by
        simp [List.length_map, List.length_range]
        exact arith_row_last p.N hN)]
      rw [board_slice _ _ _ (by
        have := arith_row_last p.N hN; omega)]
      rw [range_map_slice _ _ _ _ (arith_row_last p.N hN)]
  rw [solution_row_valid, Puzzle.row_is_valid, Puzzle.row_is_valid, hkey]

theorem col_valid_extract (p : Puzzle) (board : List (Option Int)) (c : Nat)
    (hN : 2 ≤ p.N) (hb : board.length = p.N * p.N) (hc : c < p.N) :
    solution_col_valid p
      (extract_solution (List.range (p.N * p.N - 1)) board) c
      = p.col_is_valid board c := by
  have hkey : col_values p.N
      (solution_board (extract_solution (List.range (p.N * p.N - 1)) board)) c
      = col_values p.N board c := by
    rw [col_values, col_values]
    apply List.map_congr_left
    intro i hi
    have hiN := List.mem_range.mp hi
    have hidx : i * p.N + c < p.N * p.N - 1 := by
      by_cases hb1 : c < p.N - 1
      · rw [if_pos hb1] at hiN
        exact arith_col_mid p.N i c hN hiN hb1
      · rw [if_neg hb1] at hiN
        have hce : c = p.N - 1 := by omega
        subst hce
        exact arith_col_last p.N i hN hiN
    rw [solution_board, extract_solution]
    rw [List.getD_append _ _ _ _ (by
      simp [List.length_map, List.length_range]; exact hidx)]
    rw [List.getD_eq_getElem _ _ (by
      simp [List.length_map, List.length_range]; exact hidx)]
    rw [List.getElem_map, List.getElem_map, List.getElem_range]
    rfl
  rw [solution_col_valid, Puzzle.col_is_valid, Puzzle.col_is_valid, hkey]

theorem placeFails_false_row (p : Puzzle) (idx : Nat) (board : List (Option Int))
    (val : Int) (r : Nat) (hpf : placeFails p idx board val = false)
    (hcr : completes_row p.N idx = some r) :
    p.row_is_valid (board.set idx (some val)) r = true := by
  rw [placeFails, hcr] at hpf
  rcases Bool.or_eq_false_iff.mp hpf with ⟨h1, -⟩
  simpa using h1

theorem placeFails_false_col (p : Puzzle) (idx : Nat) (board : List (Option Int))
    (val : Int) (c : Nat) (hpf : placeFails p idx board val = false)
    (hcc : completes_col p.N idx = some c) :
    p.col_is_valid (board.set idx (some val)) c = true := by
  rw [placeFails, hcc] at hpf
  rcases Bool.or_eq_false_iff.mp hpf with ⟨-, h2⟩
  simpa using h2

theorem place_invariant (p : Puzzle) (hN : 2 ≤ p.N)
    (hnum : p.numbers.length = p.N * p.N - 1) (cap : Option Nat) :
    ∀ (n k : Nat) (board : List (Option Int)) (pool : List Int)
      (sols : List (List Int)) (sol : List Int),
      n = p.N * p.N - 1 - k →
      k ≤ p.N * p.N - 1 →
      board.length = p.N * p.N →
      (extract_solution (List.range k) board ++ pool).Perm p.numbers →
      (∀ r, r < p.N → rowDoneIdx p.N r < k → p.row_is_valid board r = true) →
      (∀ c, c < p.N → colDoneIdx p.N c < k → p.col_is_valid board c = true) →
      sol ∈ place p cap (List.range (p.N * p.N - 1))
        ((List.range (p.N * p.N - 1)).drop k) board pool sols →
      sol ∈ sols ∨ good_solution p sol := by
  intro n
  induction n with
  | zero =>
    intro k board pool sols sol hn hk hb hperm hrow hcol hmem
    have hkM : k = p.N * p.N - 1 := by omega
    subst hkM
    rw [List.drop_eq_nil_of_le (by simp), place_nil] at hmem
    rcases List.mem_append.mp hmem with h | h
    · exact Or.inl h
    · right
      have hsol : sol = extract_solution (List.range (p.N * p.N - 1)) board := by
        simpa using h
      subst hsol
      rw [good_solution]
      refine ⟨by simp [extract_solution], ?_, ?_, ?_⟩
      · have hlE : (extract_solution (List.range (p.N * p.N - 1)) board).length
            = p.N * p.N - 1 := by simp [extract_solution]
        have hlp := hperm.length_eq
        rw [List.length_append, hlE, hnum] at hlp
        have hpool : pool = [] := List.length_eq_zero.mp (by omega)
        subst hpool
        simpa using hperm
      · intro r hr
        rw [row_valid_extract p board r hN hb hr]
        exact hrow r hr (rowDoneIdx_lt p.N r hN hr)
      · intro c hc
        rw [col_valid_extract p board c hN hb hc]
        exact hcol c hc (colDoneIdx_lt p.N c hN hc)
  | succ n ih =>
    intro k board pool sols sol hn hk hb hperm hrow hcol hmem
    have hklt : k < p.N * p.N - 1 := by omega
    have hdrop : (List.range (p.N * p.N - 1)).drop k
        = k :: (List.range (p.N * p.N - 1)).drop (k + 1) := by
      rw [List.drop_eq_getElem_cons (by simpa using hklt), List.getElem_range]
    rw [hdrop, place_cons] at hmem
    have inner : ∀ (cands : List Int) (s : List (List Int)) (b : Bool),
        (∀ v, v ∈ cands → v ∈ pool) →
        (∀ x, x ∈ s → x ∈ sols ∨ good_solution p x) →
        sol ∈ (cands.foldl (placeStep p cap (List.range (p.N * p.N - 1)) k
          ((List.range (p.N * p.N - 1)).drop (k + 1)) board pool) (s, b)).1 →
        sol ∈ sols ∨ good_solution p sol := by
      intro cands
      induction cands with
      | nil =>
        intro s b _ hs hm
        exact hs sol hm
      | cons val more ihc =>
        intro s b hvp hs hm
        cases b with
        | true =>
          rw [List.foldl_cons,
            show placeStep p cap (List.range (p.N * p.N - 1)) k
              ((List.range (p.N * p.N - 1)).drop (k + 1)) board pool (s, true) val
              = (s, true) from rfl,
            placeStep_absorb] at hm
          exact hs sol hm
        | false =>
          rw [List.foldl_cons, placeStep_false] at hm
          by_cases hpf : placeFails p k board val
          · rw [if_pos hpf] at hm
            exact ihc s false (fun v hv => hvp v (List.mem_cons_of_mem _ hv)) hs hm
          · rw [if_neg hpf] at hm
            have hpf' : placeFails p k board val = false := by
              simpa using hpf
            have hvalpool : val ∈ pool := hvp val (List.mem_cons_self _ _)
            have hext : extract_solution (List.range (k + 1)) (board.set k (some val))
                = extract_solution (List.range k) board ++ [val] := by
              rw [extract_range_succ]
              rw [extract_set_ge _ _ _ _ (le_refl k)]
              rw [getD_set_self (show k < board.length by omega)]
              rfl
            have hperm' : (extract_solution (List.range (k + 1))
                  (board.set k (some val)) ++ pool.erase val).Perm p.numbers := by
              rw [hext, List.append_assoc]
              exact ((List.perm_cons_erase hvalpool).symm.append_left _).trans hperm
            have hrow' : ∀ r, r < p.N → rowDoneIdx p.N r < k + 1 →
                p.row_is_valid (board.set k (some val)) r = true := by
              intro r hr hdk
              by_cases hlt : rowDoneIdx p.N r < k
              · rw [row_valid_set_high p board k r (some val) hN hr hlt]
                exact hrow r hr hlt
              · have heq : rowDoneIdx p.N r = k := by omega
                exact placeFails_false_row p k board val r hpf'
                  ((completes_row_iff p.N k r hN).mpr ⟨hr, heq.symm⟩)
            have hcol' : ∀ c, c < p.N → colDoneIdx p.N c < k + 1 →
                p.col_is_valid (board.set k (some val)) c = true := by
              intro c hc hdk
              by_cases hlt : colDoneIdx p.N c < k
              · rw [col_valid_set_high p board k c (some val) hN hc hlt]
                exact hcol c hc hlt
              · have heq : colDoneIdx p.N c = k := by omega
                exact placeFails_false_col p k board val c hpf'
                  ((completes_col_iff p.N k c hN).mpr ⟨hc, heq.symm⟩)
            refine ihc _ _ (fun v hv => hvp v (List.mem_cons_of_mem _ hv)) ?_ hm
            intro x hx
            rcases ih (k + 1) (board.set k (some val)) (pool.erase val) s x
              (by omega) (by omega) (by simp [List.length_set, hb])
              hperm' hrow' hcol' hx with hxs | hgood
            · exact hs x hxs
            · exact Or.inr hgood
    exact inner (candidates pool) sols false
      (fun v hv => mem_candidates hv) (fun x hx => Or.inl hx) hmem

/-- C9: every solution list returned by `Puzzle.solve_all`, for any
`max_solutions` cap, has length `N*N-1`, its multiset of values equals the
multiset of the puzzle's numbers, and the completed board it describes (the
values in row-major fill order plus the blank corner) satisfies all `2*N`
constraints: every row and every column, sliced per the
shortened-last-row/column layout, evaluates under operator precedence
exactly to its expected target. -/
theorem C9_solution_invariants (p : Puzzle) (cap : Option Nat) (sol : List Int)
    (hN : 2 ≤ p.N) (hnum : p.numbers.length = p.N * p.N - 1)
    (hsol : sol ∈ p.solve_all cap) :
    sol.length = p.N * p.N - 1 ∧
    (sol : Multiset Int) = (p.numbers : Multiset Int) ∧
    (∀ r, r < p.N → solution_row_valid p sol r = true) ∧
    (∀ c, c < p.N → solution_col_valid p sol c = true) := by
  rw [Puzzle.solve_all, fill_order_eq_range p.N (by omega)] at hsol
  have h0 : (List.range (p.N * p.N - 1)).drop 0 = List.range (p.N * p.N - 1) := rfl
  rcases place_invariant p hN hnum cap (p.N * p.N - 1) 0
      (List.replicate (p.N * p.N) none) p.numbers [] sol
      (by omega) (by omega) (by simp)
      (by simp [extract_solution])
      (fun r hr hlt => absurd hlt (by omega))
      (fun c hc hlt => absurd hlt (by omega))
      (by rw [h0]; exact hsol) with h | hgood
  · exact absurd h (List.not_mem_nil sol)
  · rw [good_solution] at hgood
    exact ⟨hgood.1, Multiset.coe_eq_coe.mpr hgood.2.1, hgood.2.2⟩

/-- Closed instantiation of the solver invariants on the concrete 2-by-2
puzzle produced in the orchestration run above, whose unique solution is
`[2, 2, 2]`. -/
theorem C9_witness :
    2 ≤ puzzle2x2.N ∧ puzzle2x2.numbers.length = puzzle2x2.N * puzzle2x2.N - 1 ∧
    [2, 2, 2] ∈ puzzle2x2.solve_all none ∧
    ([2, 2, 2].length = puzzle2x2.N * puzzle2x2.N - 1 ∧
     (([2, 2, 2] : List Int) : Multiset Int) = (puzzle2x2.numbers : Multiset Int) ∧
     (∀ r, r < puzzle2x2.N → solution_row_valid puzzle2x2 [2, 2, 2] r = true) ∧
     (∀ c, c < puzzle2x2.N → solution_col_valid puzzle2x2 [2, 2, 2] c = true)) :=
  ⟨by decide, by decide, by decide,
    C9_solution_invariants puzzle2x2 none [2, 2, 2] (by decide) (by decide) (by decide)⟩
